import Mathlib

/-!
Verification of the commit-graph lane-layout core (`graph-wasm/src/lib.rs`).

The Rust source is shallowly embedded below:
* `CommitIn` mirrors the deserialized commit record.
* `Json` / `deserCommits` model `serde_json::from_str::<Vec<CommitIn>>` at the
  level of the JSON value tree (integer numbers; string fields; the two
  `Option<String>` fields are absent-or-null tolerant, as with serde derive).
* `buildMap` models the `IndexMap<String, usize>` built by insertion
  (insert overwrites the value bound to an existing key).
* `buildIndeg`, `initHeap`, `relaxParents`, `schedLoop`, `schedule` model the
  priority-queue topological pass.  `BinaryHeap<(Reverse<i64>, Reverse<usize>,
  usize)>` pops the maximum of the reversed keys, i.e. the minimum
  (timestamp, index) pair; since the index component makes keys distinct, the
  pop sequence is exactly that of a list kept sorted by `keyLt`, which is how
  the heap is modelled here.
* `laneAlloc` models the lane-assignment loop.  Machine integers are `Nat`
  with explicit `% 2^w` where the source casts; `u16::MAX = 65535` is the
  unassigned sentinel, and `usize::MAX` is `2^32 - 1` (wasm32 target; every
  comparison below behaves identically for a 64-bit `usize`).  A Rust panic
  (out-of-bounds slice index) is modelled as `InnerErr.fault`, which the
  boundary `build_lanes` converts to a `"panic in build_lanes: "` message,
  mirroring `std::panic::catch_unwind` + `unwrap_or_else`.
* `u16le`/`u32le`/`u64le`, `f64bits`, `f32bitsOfNat` model the little-endian
  byte writer; the float encoders compute IEEE-754 bit patterns of the cast
  values (`i64 as f64` with round-to-nearest-even, `u16 as f32` exact).
-/

namespace GitPow

structure CommitIn where
  sha : String
  parents : List String
  timestamp : Int
  author : Option String := none
  message : Option String := none
deriving Repr, DecidableEq

instance : Inhabited CommitIn := ⟨⟨"", [], 0, none, none⟩⟩

/-! ### JSON input model (serde_json at the value level) -/

inductive Json where
  | null : Json
  | bool : Bool → Json
  | num : Int → Json
  | str : String → Json
  | arr : List Json → Json
  | obj : List (String × Json) → Json
deriving Repr

def errMsgStr : String := "invalid type: expected a string"
def errMsgInt : String := "invalid type: expected an integer"
def errMsgArr : String := "invalid type: expected an array"
def errMsgRecArr : String := "invalid type: expected an array of commit records"
def errMsgObj : String := "invalid type: expected a commit object"
def errMissing : String := "missing field"

def getField (fs : List (String × Json)) (k : String) : Option Json :=
  (fs.find? (fun kv => kv.1 == k)).map (fun kv => kv.2)

def asString : Json → Except String String
  | .str s => .ok s
  | _ => .error errMsgStr

def asStringList : List Json → Except String (List String)
  | [] => .ok []
  | x :: xs =>
    match asString x with
    | .error e => .error e
    | .ok s =>
      match asStringList xs with
      | .error e => .error e
      | .ok r => .ok (s :: r)

def asStringArr : Json → Except String (List String)
  | .arr xs => asStringList xs
  | _ => .error errMsgArr

def asInt : Json → Except String Int
  | .num n => .ok n
  | _ => .error errMsgInt

def reqField (fs : List (String × Json)) (k : String) : Except String Json :=
  match getField fs k with
  | some j => .ok j
  | none => .error errMissing

def optStringField (fs : List (String × Json)) (k : String) :
    Except String (Option String) :=
  match getField fs k with
  | none => .ok none
  | some .null => .ok none
  | some (.str s) => .ok (some s)
  | some _ => .error errMsgStr

def deserCommit : Json → Except String CommitIn
  | .obj fs =>
    match reqField fs "sha" with
    | .error e => .error e
    | .ok jsha =>
      match asString jsha with
      | .error e => .error e
      | .ok sha =>
        match reqField fs "parents" with
        | .error e => .error e
        | .ok jps =>
          match asStringArr jps with
          | .error e => .error e
          | .ok ps =>
            match reqField fs "timestamp" with
            | .error e => .error e
            | .ok jts =>
              match asInt jts with
              | .error e => .error e
              | .ok ts =>
                match optStringField fs "author" with
                | .error e => .error e
                | .ok au =>
                  match optStringField fs "message" with
                  | .error e => .error e
                  | .ok me => .ok ⟨sha, ps, ts, au, me⟩
  | _ => .error errMsgObj

def deserList : List Json → Except String (List CommitIn)
  | [] => .ok []
  | x :: xs =>
    match deserCommit x with
    | .error e => .error e
    | .ok c =>
      match deserList xs with
      | .error e => .error e
      | .ok cs => .ok (c :: cs)

def deserCommits : Json → Except String (List CommitIn)
  | .arr xs => deserList xs
  | _ => .error errMsgRecArr

/-! ### Commit index (IndexMap<String, usize>, insert overwrites) -/

def mapInsert (m : List (String × Nat)) (k : String) (v : Nat) :
    List (String × Nat) :=
  if m.any (fun kv => kv.1 == k) then
    m.map (fun kv => if kv.1 == k then (k, v) else kv)
  else
    m ++ [(k, v)]

def mapGet (m : List (String × Nat)) (k : String) : Option Nat :=
  (m.find? (fun kv => kv.1 == k)).map (fun kv => kv.2)

def buildMapAux (i : Nat) : List CommitIn → List (String × Nat) → List (String × Nat)
  | [], m => m
  | c :: cs, m => buildMapAux (i + 1) cs (mapInsert m c.sha i)

def buildMap (commits : List CommitIn) : List (String × Nat) :=
  buildMapAux 0 commits []

def resolveParents (m : List (String × Nat)) (ps : List String) : List Nat :=
  ps.filterMap (mapGet m)

/-! ### Readiness counters -/

def bumpIndeg (m : List (String × Nat)) : List String → List Nat → List Nat
  | [], ind => ind
  | p :: ps, ind =>
    match mapGet m p with
    | some pid => bumpIndeg m ps (ind.set pid (ind.getD pid 0 + 1))
    | none => bumpIndeg m ps ind

def buildIndegAux (m : List (String × Nat)) : List CommitIn → List Nat → List Nat
  | [], ind => ind
  | c :: cs, ind => buildIndegAux m cs (bumpIndeg m c.parents ind)

def buildIndeg (commits : List CommitIn) (m : List (String × Nat)) : List Nat :=
  buildIndegAux m commits (List.replicate commits.length 0)

/-! ### Priority queue (BinaryHeap of (Reverse ts, Reverse idx, idx)) -/

def keyLt (a b : Int × Nat) : Bool :=
  a.1 < b.1 || (a.1 == b.1 && a.2 < b.2)

def heapPush (x : Int × Nat) : List (Int × Nat) → List (Int × Nat)
  | [] => [x]
  | y :: t => if keyLt x y then x :: y :: t else y :: heapPush x t

def initHeapAux (i : Nat) (indeg : List Nat) :
    List CommitIn → List (Int × Nat) → List (Int × Nat)
  | [], h => h
  | c :: cs, h =>
    if indeg.getD i 0 = 0 then
      initHeapAux (i + 1) indeg cs (heapPush (c.timestamp, i) h)
    else
      initHeapAux (i + 1) indeg cs h

def initHeap (commits : List CommitIn) (indeg : List Nat) : List (Int × Nat) :=
  initHeapAux 0 indeg commits []

/-! ### Topological scheduler -/

structure Sched where
  indeg : List Nat
  heap : List (Int × Nat)
  topo : List Nat
deriving Repr

def relaxParents (commits : List CommitIn) (m : List (String × Nat)) :
    List String → Sched → Sched
  | [], s => s
  | p :: ps, s =>
    match mapGet m p with
    | some pid =>
      if 0 < s.indeg.getD pid 0 then
        if (s.indeg.set pid (s.indeg.getD pid 0 - 1)).getD pid 0 = 0 then
          relaxParents commits m ps
            { s with indeg := s.indeg.set pid (s.indeg.getD pid 0 - 1),
                     heap := heapPush ((commits.getD pid default).timestamp, pid) s.heap }
        else
          relaxParents commits m ps
            { s with indeg := s.indeg.set pid (s.indeg.getD pid 0 - 1) }
      else
        relaxParents commits m ps s
    | none => relaxParents commits m ps s

def schedLoop (commits : List CommitIn) (m : List (String × Nat)) :
    Nat → Sched → Sched
  | 0, s => s
  | Nat.succ fuel, s =>
    match s.heap with
    | [] => s
    | (_, idx) :: rest =>
      schedLoop commits m fuel
        (relaxParents commits m (commits.getD idx default).parents
          { indeg := s.indeg, heap := rest, topo := s.topo ++ [idx] })

def schedMeasure (s : Sched) : Nat := s.indeg.sum + s.heap.length

def scheduleState (commits : List CommitIn) : Sched :=
  let m := buildMap commits
  let ind := buildIndeg commits m
  let h0 := initHeap commits ind
  schedLoop commits m (ind.sum + h0.length) ⟨ind, h0, []⟩

def schedule (commits : List CommitIn) : List Nat :=
  let t := (scheduleState commits).topo
  if t.length ≠ commits.length then
    t ++ (List.range commits.length).filter (fun i => !(t.contains i))
  else
    t

/-! ### Lane allocator -/

/-- `usize::MAX` on the wasm32 target.  Every comparison below involves a
value at most `u16::MAX = 65535`, so the behaviour is identical for a
64-bit `usize`. -/
def usizeMax : Nat := 2 ^ 32 - 1

/-- Message of the Rust out-of-bounds slice-index panic. -/
def oobMsg (len idx : Nat) : String :=
  "index out of bounds: the len is " ++ toString len ++
    " but the index is " ++ toString idx

inductive InnerErr where
  | js : String → InnerErr
  | fault : String → InnerErr
deriving Repr, DecidableEq

structure LaneSt where
  active : List (Option Nat)
  laneOf : List Nat
deriving Repr, DecidableEq

/-- The `prefer parent lane` scan: for each parent resolvable in the map, read
`lane_of[pid] as usize` and keep it unless it equals `usize::MAX`.  Since
`lane_of` holds `u16` values (`≤ 65535`), the comparison never fires. -/
def findParentLane (m : List (String × Nat)) (laneOf : List Nat) :
    List String → Option Nat
  | [] => none
  | p :: ps =>
    match mapGet m p with
    | some pid =>
      let l := laneOf.getD pid 0
      if l ≠ usizeMax then some l else findParentLane m laneOf ps
    | none => findParentLane m laneOf ps

def findEmptySlot : List (Option Nat) → Option Nat
  | [] => none
  | slot :: rest =>
    match slot with
    | none => some 0
    | some _ => (findEmptySlot rest).map (fun i => i + 1)

def freeParentLanes (m : List (String × Nat)) (laneOf : List Nat) :
    List String → List (Option Nat) → Except InnerErr (List (Option Nat))
  | [], active => .ok active
  | p :: ps, active =>
    match mapGet m p with
    | some pid =>
      let lp := laneOf.getD pid 0
      if lp ≠ usizeMax then
        if lp < active.length then
          freeParentLanes m laneOf ps (active.set lp none)
        else
          .error (.fault (oobMsg active.length lp))
      else
        freeParentLanes m laneOf ps active
    | none => freeParentLanes m laneOf ps active

def allocOne (commits : List CommitIn) (m : List (String × Nat))
    (s : LaneSt) (ci : Nat) : Except InnerErr LaneSt :=
  let ps := (commits.getD ci default).parents
  let a1 := findParentLane m s.laneOf ps
  let a2 := match a1 with
    | some l => some l
    | none => findEmptySlot s.active
  let grown := match a2 with
    | some _ => s.active
    | none => s.active ++ [none]
  let laneIdx := match a2 with
    | some l => l
    | none => s.active.length
  let laneOf1 := s.laneOf.set ci (laneIdx % 2 ^ 16)
  if laneIdx < grown.length then
    match freeParentLanes m laneOf1 ps (grown.set laneIdx (some ci)) with
    | .ok act => .ok ⟨act, laneOf1⟩
    | .error e => .error e
  else
    .error (.fault (oobMsg grown.length laneIdx))

def laneAlloc (commits : List CommitIn) (m : List (String × Nat)) :
    List Nat → LaneSt → Except InnerErr LaneSt
  | [], s => .ok s
  | ci :: rest, s =>
    match allocOne commits m s ci with
    | .ok s' => laneAlloc commits m rest s'
    | .error e => .error e

/-! ### Edge list -/

def buildEdgesAux (m : List (String × Nat)) (i : Nat) :
    List CommitIn → List (Nat × Nat)
  | [] => []
  | c :: cs =>
    (resolveParents m c.parents).map (fun pid => (i % 2 ^ 32, pid % 2 ^ 32))
      ++ buildEdgesAux m (i + 1) cs

def buildEdges (commits : List CommitIn) (m : List (String × Nat)) :
    List (Nat × Nat) :=
  buildEdgesAux m 0 commits

/-! ### Little-endian byte writer and IEEE-754 bit encoders -/

def u16le (n : Nat) : List Nat := [n % 256, n / 256 % 256]

def u32le (n : Nat) : List Nat :=
  [n % 256, n / 256 % 256, n / 2 ^ 16 % 256, n / 2 ^ 24 % 256]

def u64le (n : Nat) : List Nat :=
  [n % 256, n / 256 % 256, n / 2 ^ 16 % 256, n / 2 ^ 24 % 256,
   n / 2 ^ 32 % 256, n / 2 ^ 40 % 256, n / 2 ^ 48 % 256, n / 2 ^ 56 % 256]

/-- Round-to-nearest-even of `a / 2^shift`. -/
def roundMantissa (a shift : Nat) : Nat :=
  let q := a / 2 ^ shift
  let r := a % 2 ^ shift
  let half := 2 ^ (shift - 1)
  if r > half || (r == half && q % 2 == 1) then q + 1 else q

/-- IEEE-754 binary64 bit pattern of a nonnegative integer (`a as f64`). -/
def f64bitsOfNat (a : Nat) : Nat :=
  if a = 0 then 0
  else
    let e := Nat.log2 a
    if e ≤ 52 then
      (e + 1023) * 2 ^ 52 + (a * 2 ^ (52 - e) - 2 ^ 52)
    else
      let q := roundMantissa a (e - 52)
      if q = 2 ^ 53 then (e + 1 + 1023) * 2 ^ 52
      else (e + 1023) * 2 ^ 52 + (q - 2 ^ 52)

/-- IEEE-754 binary64 bit pattern of `t as f64` for an `i64` value. -/
def f64bits (t : Int) : Nat :=
  if 0 ≤ t then f64bitsOfNat t.toNat
  else 2 ^ 63 + f64bitsOfNat (-t).toNat

/-- IEEE-754 binary32 bit pattern of a small nonnegative integer
(exact for the `u16 as f32` casts performed by the encoder). -/
def f32bitsOfNat (n : Nat) : Nat :=
  if n = 0 then 0
  else
    let e := Nat.log2 n
    (e + 127) * 2 ^ 23 + (n * 2 ^ (23 - e) - 2 ^ 23)

/-- IEEE-754 binary32 bit pattern of `0.5f32`. -/
def f32bitsHalf : Nat := 126 * 2 ^ 23

/-! ### Binary encoder -/

def commitChunk (commits : List CommitIn) (laneOf : List Nat)
    (pos ci : Nat) : List Nat :=
  u16le (laneOf.getD ci 0) ++ u32le (pos % 2 ^ 32)
    ++ u64le (f64bits (commits.getD ci default).timestamp)

def encodeCommitsAux (commits : List CommitIn) (laneOf : List Nat)
    (pos : Nat) : List Nat → List Nat
  | [] => []
  | ci :: rest =>
    commitChunk commits laneOf pos ci
      ++ encodeCommitsAux commits laneOf (pos + 1) rest

def encodeCommits (commits : List CommitIn) (laneOf : List Nat)
    (topo : List Nat) : List Nat :=
  encodeCommitsAux commits laneOf 0 topo

def edgeOobMsg (cIdx pIdx len : Nat) : String :=
  "Edge index out of bounds: from=" ++ toString cIdx ++ " to="
    ++ toString pIdx ++ " len=" ++ toString len

def edgeChunk (laneOf : List Nat) (cIdx pIdx : Nat) : List Nat :=
  u32le cIdx ++ u32le pIdx
    ++ u32le (f32bitsOfNat (laneOf.getD cIdx 0)) ++ u32le f32bitsHalf
    ++ u32le (f32bitsOfNat (laneOf.getD pIdx 0)) ++ u32le f32bitsHalf

def encodeEdges (laneOf : List Nat) :
    List (Nat × Nat) → Except InnerErr (List Nat)
  | [] => .ok []
  | (cIdx, pIdx) :: rest =>
    if cIdx ≥ laneOf.length || pIdx ≥ laneOf.length then
      .error (.js (edgeOobMsg cIdx pIdx laneOf.length))
    else
      match encodeEdges laneOf rest with
      | .ok tailBytes => .ok (edgeChunk laneOf cIdx pIdx ++ tailBytes)
      | .error e => .error e

/-! ### Whole pipeline and boundary guard -/

def buildLanesCommits (commits : List CommitIn) : Except InnerErr (List Nat) :=
  let m := buildMap commits
  let topo := schedule commits
  match laneAlloc commits m topo ⟨[], List.replicate commits.length 65535⟩ with
  | .error e => .error e
  | .ok st =>
    let edges := buildEdges commits m
    match encodeEdges st.laneOf edges with
    | .error e => .error e
    | .ok edgeBytes =>
      .ok (u32le (commits.length % 2 ^ 32) ++ u32le (edges.length % 2 ^ 32)
        ++ encodeCommits commits st.laneOf topo ++ edgeBytes)

def buildLanesInner (j : Json) : Except InnerErr (List Nat) :=
  match deserCommits j with
  | .error e => .error (.js e)
  | .ok commits => buildLanesCommits commits

def panicMark : String := "panic in build_lanes: "

/-- The public entry point: `catch_unwind` converts a panic into an error
string, explicit `Err(JsValue)` results pass through. -/
def build_lanes (j : Json) : Except String (List Nat) :=
  match buildLanesInner j with
  | .ok b => .ok b
  | .error (.js s) => .error s
  | .error (.fault s) => .error (panicMark ++ s)

/-! ### Proof-side definitions -/

/-- Indices currently sitting in the priority queue. -/
def heapIdx (h : List (Int × Nat)) : List Nat := h.map (fun k => k.2)

/-- The in-set parent indices of the commit at index `c`. -/
def refsFrom (commits : List CommitIn) (m : List (String × Nat)) (c : Nat) :
    List Nat :=
  resolveParents m (commits.getD c default).parents

/-- `childParent commits c p`: the record at index `c` lists a parent
identifier that the commit index resolves to index `p`. -/
def childParent (commits : List CommitIn) (c p : Nat) : Prop :=
  c < commits.length ∧ p ∈ refsFrom commits (buildMap commits) c

instance (commits : List CommitIn) (c p : Nat) :
    Decidable (childParent commits c p) := by
  unfold childParent; infer_instance

/-- The resolvable parent references form a cycle-free graph: no index is
its own proper ancestor through one or more child→parent edges. -/
def CycleFree (commits : List CommitIn) : Prop :=
  ∀ x, ¬ Relation.TransGen (childParent commits) x x

/-- Number of unresolved-yet references to `j` from commits outside `topo`:
the readiness counter the scheduler should hold for a not-yet-queued `j`. -/
def pendingRefs (commits : List CommitIn) (m : List (String × Nat))
    (topo : List Nat) (j : Nat) : Nat :=
  ∑ c ∈ (Finset.range commits.length).filter (fun c => c ∉ topo),
    (refsFrom commits m c).count j

/-- Index bound to `s` by the insertion loop: the last matching position,
offset by `i`. -/
def lastIdxFrom (s : String) : Nat → List CommitIn → Option Nat
  | _, [] => none
  | i, c :: cs =>
    match lastIdxFrom s (i + 1) cs with
    | some j => some j
    | none => if c.sha = s then some i else none

/-- Heap order relation: earlier timestamp first, smaller index on ties.
`keyLt x y = false` implies `heapKeyLe y x`. -/
def heapKeyLe (a b : Int × Nat) : Prop :=
  a.1 < b.1 ∨ (a.1 = b.1 ∧ a.2 ≤ b.2)

/-- The heap model is a list sorted by `heapKeyLe`; its head is the element
`BinaryHeap::pop` would return. -/
def heapSorted (h : List (Int × Nat)) : Prop := h.Pairwise heapKeyLe

/-- Scheduler loop invariant. -/
structure SchedInv (commits : List CommitIn) (m : List (String × Nat))
    (s : Sched) : Prop where
  indegLen : s.indeg.length = commits.length
  nodup : (s.topo ++ heapIdx s.heap).Nodup
  bounded : ∀ i ∈ s.topo ++ heapIdx s.heap, i < commits.length
  memZero : ∀ i ∈ s.topo ++ heapIdx s.heap, s.indeg.getD i 0 = 0
  pending : ∀ j, j < commits.length → j ∉ s.topo → j ∉ heapIdx s.heap →
    s.indeg.getD j 0 = pendingRefs commits m s.topo j
  pendingPos : ∀ j, j < commits.length → j ∉ s.topo → j ∉ heapIdx s.heap →
    0 < s.indeg.getD j 0
  childrenPopped : ∀ p ∈ heapIdx s.heap, ∀ c, c < commits.length →
    p ∈ refsFrom commits m c → c ∈ s.topo
  orderOk : ∀ p ∈ s.topo, ∀ c, c < commits.length → p ∈ refsFrom commits m c →
    c ∈ s.topo ∧ s.topo.indexOf c < s.topo.indexOf p

/-- Invariant of the parent-relaxation fold: like `SchedInv`, but the
readiness counter of a not-yet-queued commit still includes the
unprocessed references `ps` of the commit just popped. -/
structure RelaxInv (commits : List CommitIn) (m : List (String × Nat))
    (ps : List String) (s : Sched) : Prop where
  indegLen : s.indeg.length = commits.length
  nodup : (s.topo ++ heapIdx s.heap).Nodup
  bounded : ∀ i ∈ s.topo ++ heapIdx s.heap, i < commits.length
  memZero : ∀ i ∈ s.topo ++ heapIdx s.heap, s.indeg.getD i 0 = 0
  pendMid : ∀ j, j < commits.length → j ∉ s.topo → j ∉ heapIdx s.heap →
    s.indeg.getD j 0
      = pendingRefs commits m s.topo j + (resolveParents m ps).count j
  midPos : ∀ j, j < commits.length → j ∉ s.topo → j ∉ heapIdx s.heap →
    0 < s.indeg.getD j 0
  childrenPopped : ∀ p ∈ heapIdx s.heap, ∀ c, c < commits.length →
    p ∈ refsFrom commits m c → c ∈ s.topo
  orderOk : ∀ p ∈ s.topo, ∀ c, c < commits.length → p ∈ refsFrom commits m c →
    c ∈ s.topo ∧ s.topo.indexOf c < s.topo.indexOf p

/-- Total number of parent references that resolve within the input set. -/
def numResolvableRefs (commits : List CommitIn) : Nat :=
  (commits.map
    (fun c => (resolveParents (buildMap commits) c.parents).length)).sum

/-- §4.4 output layout, transcribed from the spec: 4-byte commit count and
edge count, then per commit in visitation order a 2-byte lane id, 4-byte
0-based position and 8-byte float timestamp, then per edge two 4-byte
indices and four 4-byte floats (child lane, 0.5, parent lane, 0.5), all
little-endian. -/
def specBufferLayout (commits : List CommitIn) (order : List Nat)
    (laneOf : List Nat) (edges : List (Nat × Nat)) : List Nat :=
  u32le (commits.length % 2 ^ 32) ++ u32le (edges.length % 2 ^ 32)
    ++ (order.enum.flatMap fun pi =>
          u16le (laneOf.getD pi.2 0) ++ u32le (pi.1 % 2 ^ 32)
            ++ u64le (f64bits (commits.getD pi.2 default).timestamp))
    ++ edges.flatMap fun e => edgeChunk laneOf e.1 e.2

/-! ### Concrete inputs used by examples, witnesses and counterexamples -/

/-- A two-commit chain: `b`'s parent is `a`. -/
def twoChain : List CommitIn :=
  [⟨"b", ["a"], 2, none, none⟩, ⟨"a", [], 1, none, none⟩]

/-- Scenario A of §8: `c3 → c2 → c1`, timestamps 3 > 2 > 1. -/
def scenA : List CommitIn :=
  [⟨"c3", ["c2"], 3, none, none⟩, ⟨"c2", ["c1"], 2, none, none⟩,
   ⟨"c1", [], 1, none, none⟩]

/-- Scenario A as a JSON value. -/
def scenAJson : Json :=
  Json.arr
    [Json.obj [("sha", .str "c3"), ("parents", .arr [.str "c2"]),
       ("timestamp", .num 3)],
     Json.obj [("sha", .str "c2"), ("parents", .arr [.str "c1"]),
       ("timestamp", .num 2)],
     Json.obj [("sha", .str "c1"), ("parents", .arr []),
       ("timestamp", .num 1)]]

/-- Scenario B of §8: two unrelated tips with timestamps 1 < 2. -/
def scenB : List CommitIn :=
  [⟨"a", [], 1, none, none⟩, ⟨"b", [], 2, none, none⟩]

/-- An input on which the whole pipeline succeeds with a nonempty edge
list: `c` lists parents `[p, c]`, so its first resolvable parent `p` is
already laned when `c` is processed (both are emitted by the cycle-append
path or the heap in an order that assigns `p` first). -/
def cornerOk : List CommitIn :=
  [⟨"p", [], 1, none, none⟩, ⟨"c", ["p", "c"], 2, none, none⟩]

/-- A single parentless commit. -/
def singleC : List CommitIn := [⟨"a", [], 5, none, none⟩]

/-- Every message the deserializer can produce. -/
def deserErrMsgs : List String :=
  [errMsgStr, errMsgInt, errMsgArr, errMsgRecArr, errMsgObj, errMissing]

/-- The buffer produced on `cornerOk` (the pipeline succeeds there). -/
def cornerBuf : List Nat :=
  match buildLanesCommits cornerOk with
  | .ok b => b
  | .error _ => []

/-- An input with a duplicated identifier: `x` appears at indices 0 and 1,
and a later commit references `x` as a parent. -/
def dupInput : List CommitIn :=
  [⟨"x", [], 1, none, none⟩, ⟨"x", [], 2, none, none⟩,
   ⟨"c", ["x"], 3, none, none⟩]

/-! ### List helpers -/

lemma getD_set_self (l : List Nat) (i v : Nat) (h : i < l.length) :
    (l.set i v).getD i 0 = v := by
  induction l generalizing i with
  | nil => simp at h
  | cons a t ih =>
    cases i with
    | zero => simp
    | succ n =>
      simp only [List.set_cons_succ, List.getD_cons_succ]
      exact ih n (by simpa using h)

lemma getD_set_ne (l : List Nat) (i j v : Nat) (h : j ≠ i) :
    (l.set i v).getD j 0 = l.getD j 0 := by
  induction l generalizing i j with
  | nil => simp
  | cons a t ih =>
    cases i with
    | zero =>
      cases j with
      | zero => exact absurd rfl h
      | succ n => simp
    | succ n =>
      cases j with
      | zero => simp
      | succ k =>
        simp only [List.set_cons_succ, List.getD_cons_succ]
        exact ih n k (fun e => h (by omega))

lemma length_set_eq (l : List Nat) (i v : Nat) : (l.set i v).length = l.length :=
  List.length_set ..

lemma sum_set_pred (l : List Nat) (i : Nat) (h : 0 < l.getD i 0) :
    (l.set i (l.getD i 0 - 1)).sum + 1 = l.sum := by
  induction l generalizing i with
  | nil => simp at h
  | cons a t ih =>
    cases i with
    | zero =>
      simp only [List.getD_cons_zero] at h ⊢
      simp [List.sum_cons]
      omega
    | succ n =>
      simp only [List.getD_cons_succ] at h ⊢
      simp only [List.set_cons_succ, List.sum_cons]
      have := ih n h
      omega

lemma getD_pos_lt_length (l : List Nat) (i : Nat) (h : 0 < l.getD i 0) :
    i < l.length := by
  by_contra hge
  rw [List.getD_eq_default] at h
  · exact absurd h (by omega)
  · omega

/-! ### Heap helpers -/

lemma heapPush_length (x : Int × Nat) (h : List (Int × Nat)) :
    (heapPush x h).length = h.length + 1 := by
  induction h with
  | nil => rfl
  | cons y t ih =>
    by_cases hk : keyLt x y
    · simp [heapPush, hk]
    · simp [heapPush, hk, ih]

lemma mem_heapPush (x z : Int × Nat) (h : List (Int × Nat)) :
    z ∈ heapPush x h ↔ z = x ∨ z ∈ h := by
  induction h with
  | nil => simp [heapPush]
  | cons y t ih =>
    by_cases hk : keyLt x y
    · rw [heapPush, if_pos hk]
      simp only [List.mem_cons]
    · rw [heapPush, if_neg hk]
      simp only [List.mem_cons, ih]
      tauto

lemma heapIdx_heapPush_perm (x : Int × Nat) (h : List (Int × Nat)) :
    (heapIdx (heapPush x h)).Perm (x.2 :: heapIdx h) := by
  induction h with
  | nil =>
    simp only [heapPush, heapIdx, List.map_cons, List.map_nil]
    exact List.Perm.refl _
  | cons y t ih =>
    by_cases hk : keyLt x y
    · rw [heapPush, if_pos hk]
      exact List.Perm.refl _
    · rw [heapPush, if_neg hk]
      simp only [heapIdx, List.map_cons] at ih ⊢
      exact (ih.cons y.2).trans (List.Perm.swap _ _ _)

lemma mem_heapIdx_heapPush (x : Int × Nat) (h : List (Int × Nat)) (j : Nat) :
    j ∈ heapIdx (heapPush x h) ↔ j = x.2 ∨ j ∈ heapIdx h := by
  rw [(heapIdx_heapPush_perm x h).mem_iff]
  simp

lemma heapKeyLe_total (x y : Int × Nat) (h : keyLt x y = false) : heapKeyLe y x := by
  unfold keyLt at h
  unfold heapKeyLe
  simp only [Bool.or_eq_false_iff, decide_eq_false_iff_not, Bool.and_eq_false_iff,
    beq_eq_false_iff_ne, ne_eq] at h
  rcases h with ⟨h1, h2⟩
  rcases h2 with h2 | h2
  · omega
  · simp at h2
    omega

lemma heapKeyLe_of_keyLt (x y : Int × Nat) (h : keyLt x y = true) : heapKeyLe x y := by
  unfold keyLt at h
  unfold heapKeyLe
  simp only [Bool.or_eq_true, decide_eq_true_eq, Bool.and_eq_true, beq_iff_eq] at h
  rcases h with h | ⟨h1, h2⟩
  · exact Or.inl h
  · exact Or.inr ⟨h1, Nat.le_of_lt h2⟩

lemma heapKeyLe_trans {x y z : Int × Nat} (h1 : heapKeyLe x y) (h2 : heapKeyLe y z) :
    heapKeyLe x z := by
  unfold heapKeyLe at *
  rcases h1 with h1 | ⟨e1, l1⟩ <;> rcases h2 with h2 | ⟨e2, l2⟩
  · exact Or.inl (lt_trans h1 h2)
  · exact Or.inl (e2 ▸ h1)
  · exact Or.inl (e1 ▸ h2)
  · exact Or.inr ⟨e1.trans e2, le_trans l1 l2⟩

lemma heapSorted_push (x : Int × Nat) (h : List (Int × Nat))
    (hs : heapSorted h) : heapSorted (heapPush x h) := by
  induction h with
  | nil =>
    unfold heapSorted heapPush
    simp
  | cons y t ih =>
    unfold heapSorted at hs ⊢
    rw [List.pairwise_cons] at hs
    obtain ⟨hy, ht⟩ := hs
    by_cases hk : keyLt x y
    · rw [heapPush, if_pos hk, List.pairwise_cons]
      refine ⟨?_, List.pairwise_cons.2 ⟨hy, ht⟩⟩
      intro z hz
      rcases List.mem_cons.1 hz with rfl | hz
      · exact heapKeyLe_of_keyLt _ _ hk
      · exact heapKeyLe_trans (heapKeyLe_of_keyLt _ _ hk) (hy z hz)
    · rw [heapPush, if_neg hk, List.pairwise_cons]
      refine ⟨?_, ih ht⟩
      intro z hz
      rcases (mem_heapPush x z t).1 hz with rfl | hz2
      · exact heapKeyLe_total _ _ (by simpa using hk)
      · exact hy z hz2

/-! ### Commit index characterization -/

lemma find?_map_replace (rest : List (String × Nat)) (k k' : String) (v : Nat)
    (hne : k' ≠ k) :
    (rest.map (fun kv => if kv.1 == k then (k, v) else kv)).find?
        (fun kv => kv.1 == k')
      = rest.find? (fun kv => kv.1 == k') := by
  induction rest with
  | nil => rfl
  | cons x t ih =>
    by_cases hx : x.1 = k
    · have h1 : (if x.1 == k then (k, v) else x) = (k, v) := by simp [hx]
      rw [List.map_cons, h1]
      rw [List.find?_cons, List.find?_cons]
      have h2 : ((k, v).1 == k') = false := by simp; exact fun e => hne e.symm
      have h3 : (x.1 == k') = false := by simp [hx]; exact fun e => hne e.symm
      rw [h2, h3, ih]
    · have h1 : (if x.1 == k then (k, v) else x) = x := by simp [hx]
      rw [List.map_cons, h1, List.find?_cons, List.find?_cons]
      cases hx2 : (x.1 == k') with
      | true => rfl
      | false => rw [ih]

lemma find?_map_hit (rest : List (String × Nat)) (k : String) (v : Nat)
    (hany : rest.any (fun kv => kv.1 == k) = true) :
    (rest.map (fun kv => if kv.1 == k then (k, v) else kv)).find?
        (fun kv => kv.1 == k) = some (k, v) := by
  induction rest with
  | nil => simp at hany
  | cons x t ih =>
    by_cases hx : x.1 = k
    · have h1 : (if x.1 == k then (k, v) else x) = (k, v) := by simp [hx]
      rw [List.map_cons, h1, List.find?_cons]
      simp
    · have h1 : (if x.1 == k then (k, v) else x) = x := by simp [hx]
      rw [List.map_cons, h1, List.find?_cons]
      have h2 : (x.1 == k) = false := by simp [hx]
      rw [h2]
      apply ih
      simpa [List.any_cons, h2] using hany

lemma mapGet_mapInsert (m : List (String × Nat)) (k k' : String) (v : Nat) :
    mapGet (mapInsert m k v) k' = if k' = k then some v else mapGet m k' := by
  unfold mapInsert mapGet
  cases hany : m.any (fun kv => kv.1 == k) with
  | true =>
    rw [if_pos rfl]
    by_cases hk : k' = k
    · subst hk
      rw [find?_map_hit m k' v hany]
      simp
    · rw [find?_map_replace m k k' v hk, if_neg hk]
  | false =>
    rw [if_neg (by simp)]
    rw [List.find?_append]
    by_cases hk : k' = k
    · subst hk
      have h1 : m.find? (fun kv => kv.1 == k') = none := by
        rw [List.find?_eq_none]
        intro x hx
        simp only [Bool.not_eq_true]
        by_contra hc
        simp only [Bool.not_eq_false] at hc
        have h3 : m.any (fun kv => kv.1 == k') = true :=
          List.any_eq_true.2 ⟨x, hx, hc⟩
        rw [h3] at hany
        simp at hany
      rw [h1]
      simp
    · cases hfind : m.find? (fun kv => kv.1 == k') with
      | some kv => simp [hfind, if_neg hk]
      | none =>
        simp only [hfind, Option.none_or, if_neg hk]
        have h2 : ((k, v).1 == k') = false := by
          simp
          exact fun e => hk e.symm
        simp [List.find?_cons, h2]

lemma buildMapAux_get (s : String) :
    ∀ (cs : List CommitIn) (i : Nat) (m₀ : List (String × Nat)),
    mapGet (buildMapAux i cs m₀) s
      = match lastIdxFrom s i cs with
        | some j => some j
        | none => mapGet m₀ s := by
  intro cs
  induction cs with
  | nil => intro i m₀; rfl
  | cons c t ih =>
    intro i m₀
    rw [buildMapAux, ih, lastIdxFrom]
    cases ht : lastIdxFrom s (i + 1) t with
    | some j => rfl
    | none =>
      simp only
      rw [mapGet_mapInsert]
      by_cases hc : c.sha = s
      · rw [if_pos hc, if_pos hc.symm]
      · rw [if_neg (fun e => hc e.symm), if_neg hc]

lemma lastIdxFrom_bounds (s : String) :
    ∀ (cs : List CommitIn) (i j : Nat), lastIdxFrom s i cs = some j →
      i ≤ j ∧ j < i + cs.length := by
  intro cs
  induction cs with
  | nil => intro i j h; exact absurd h (by simp [lastIdxFrom])
  | cons c t ih =>
    intro i j h
    rw [lastIdxFrom] at h
    cases ht : lastIdxFrom s (i + 1) t with
    | some j' =>
      rw [ht] at h
      cases h
      have := ih (i + 1) j ht
      constructor
      · omega
      · simp only [List.length_cons]
        omega
    | none =>
      rw [ht] at h
      simp only at h
      by_cases hc : c.sha = s
      · rw [if_pos hc] at h
        cases h
        simp only [List.length_cons]
        omega
      · rw [if_neg hc] at h
        exact absurd h (by simp)

lemma mapGet_buildMap_lt (commits : List CommitIn) (s : String) (pid : Nat)
    (h : mapGet (buildMap commits) s = some pid) : pid < commits.length := by
  rw [buildMap, buildMapAux_get] at h
  cases ht : lastIdxFrom s 0 commits with
  | some j =>
    rw [ht] at h
    cases h
    have := lastIdxFrom_bounds s commits 0 pid ht
    omega
  | none =>
    rw [ht] at h
    exact absurd h (by simp [mapGet])

/-! ### Readiness-counter characterization -/

lemma bumpIndeg_length (m : List (String × Nat)) (ps : List String)
    (ind : List Nat) : (bumpIndeg m ps ind).length = ind.length := by
  induction ps generalizing ind with
  | nil => rfl
  | cons p t ih =>
    rw [bumpIndeg]
    cases mapGet m p with
    | some pid => rw [ih]; exact List.length_set ..
    | none => exact ih ind

lemma buildIndegAux_length (m : List (String × Nat)) (cs : List CommitIn)
    (ind : List Nat) : (buildIndegAux m cs ind).length = ind.length := by
  induction cs generalizing ind with
  | nil => rfl
  | cons c t ih => rw [buildIndegAux, ih, bumpIndeg_length]

lemma buildIndeg_length (commits : List CommitIn) (m : List (String × Nat)) :
    (buildIndeg commits m).length = commits.length := by
  rw [buildIndeg, buildIndegAux_length, List.length_replicate]

lemma bumpIndeg_getD (m : List (String × Nat)) (ps : List String)
    (ind : List Nat) (j : Nat) (hj : j < ind.length) :
    (bumpIndeg m ps ind).getD j 0
      = ind.getD j 0 + (resolveParents m ps).count j := by
  induction ps generalizing ind with
  | nil => simp [bumpIndeg, resolveParents]
  | cons p t ih =>
    rw [bumpIndeg]
    cases hp : mapGet m p with
    | none =>
      rw [ih ind hj]
      simp [resolveParents, List.filterMap_cons, hp]
    | some pid =>
      rw [ih _ (by rw [List.length_set]; exact hj)]
      have hres : resolveParents m (p :: t) = pid :: resolveParents m t := by
        simp [resolveParents, List.filterMap_cons, hp]
      rw [hres]
      by_cases hjp : j = pid
      · subst hjp
        rw [getD_set_self _ _ _ hj, List.count_cons_self]
        omega
      · rw [getD_set_ne _ _ _ _ hjp, List.count_cons_of_ne (by simpa using hjp)]

lemma buildIndegAux_getD (m : List (String × Nat)) (cs : List CommitIn)
    (ind : List Nat) (j : Nat) (hj : j < ind.length) :
    (buildIndegAux m cs ind).getD j 0
      = ind.getD j 0
        + (cs.map (fun c => (resolveParents m c.parents).count j)).sum := by
  induction cs generalizing ind with
  | nil => simp [buildIndegAux]
  | cons c t ih =>
    rw [buildIndegAux, ih _ (by rw [bumpIndeg_length]; exact hj),
      bumpIndeg_getD m _ _ _ hj]
    simp [Nat.add_assoc]

lemma sum_range_getD {α : Type} (l : List α) (f : α → Nat) (d : α) :
    ∑ c ∈ Finset.range l.length, f (l.getD c d) = (l.map f).sum := by
  induction l with
  | nil => simp
  | cons a t ih =>
    rw [List.length_cons, Finset.sum_range_succ']
    simp only [List.getD_cons_succ, List.getD_cons_zero, List.map_cons,
      List.sum_cons]
    rw [ih]
    omega

lemma buildIndeg_getD (commits : List CommitIn) (m : List (String × Nat))
    (j : Nat) (hj : j < commits.length) :
    (buildIndeg commits m).getD j 0 = pendingRefs commits m [] j := by
  rw [buildIndeg, buildIndegAux_getD m _ _ _ (by simpa using hj)]
  have h0 : (List.replicate commits.length 0).getD j 0 = 0 := by
    rw [List.getD_eq_getElem?_getD]
    simp [List.getElem?_replicate, hj]
  rw [h0, Nat.zero_add, pendingRefs]
  have hfilter :
      (Finset.range commits.length).filter (fun c => c ∉ ([] : List Nat))
        = Finset.range commits.length := by
    apply Finset.filter_true_of_mem
    intro x _
    simp
  rw [hfilter]
  have := sum_range_getD commits
    (fun c => (resolveParents m c.parents).count j) default
  rw [← this]
  rfl

/-! ### Initial heap characterization -/

lemma initHeapAux_spec (indeg : List Nat) (cs : List CommitIn) :
    ∀ (i : Nat) (acc : List (Int × Nat)),
      (∀ j ∈ heapIdx acc, j < i) → (heapIdx acc).Nodup →
      (heapIdx (initHeapAux i indeg cs acc)).Nodup ∧
      (∀ j, j ∈ heapIdx (initHeapAux i indeg cs acc) ↔
        (j ∈ heapIdx acc ∨ (i ≤ j ∧ j < i + cs.length ∧ indeg.getD j 0 = 0))) := by
  induction cs with
  | nil =>
    intro i acc hlt hnd
    refine ⟨hnd, ?_⟩
    intro j
    simp only [initHeapAux, List.length_nil, Nat.add_zero]
    constructor
    · exact fun h => Or.inl h
    · rintro (h | ⟨h1, h2, _⟩)
      · exact h
      · omega
  | cons c t ih =>
    intro i acc hlt hnd
    rw [initHeapAux]
    by_cases hz : indeg.getD i 0 = 0
    · rw [if_pos hz]
      have hlt' : ∀ j ∈ heapIdx (heapPush (c.timestamp, i) acc), j < i + 1 := by
        intro j hj
        rcases (mem_heapIdx_heapPush _ _ _).1 hj with rfl | hj2
        · omega
        · exact Nat.lt_succ_of_lt (hlt j hj2)
      have hnd' : (heapIdx (heapPush (c.timestamp, i) acc)).Nodup := by
        refine (heapIdx_heapPush_perm _ _).nodup_iff.2 ?_
        refine List.nodup_cons.2 ⟨?_, hnd⟩
        intro hin
        exact absurd (hlt i hin) (by omega)
      obtain ⟨hnd2, hiff⟩ := ih (i + 1) _ hlt' hnd'
      refine ⟨hnd2, ?_⟩
      intro j
      rw [hiff j, mem_heapIdx_heapPush]
      constructor
      · rintro ((rfl | h) | ⟨h1, h2, h3⟩)
        · exact Or.inr ⟨Nat.le_refl _, by simp, hz⟩
        · exact Or.inl h
        · exact Or.inr ⟨by omega, by simp only [List.length_cons]; omega, h3⟩
      · rintro (h | ⟨h1, h2, h3⟩)
        · exact Or.inl (Or.inr h)
        · by_cases hji : j = i
          · exact Or.inl (Or.inl hji)
          · refine Or.inr ⟨by omega, by simp only [List.length_cons] at h2; omega, h3⟩
    · rw [if_neg hz]
      have hlt' : ∀ j ∈ heapIdx acc, j < i + 1 :=
        fun j hj => Nat.lt_succ_of_lt (hlt j hj)
      obtain ⟨hnd2, hiff⟩ := ih (i + 1) acc hlt' hnd
      refine ⟨hnd2, ?_⟩
      intro j
      rw [hiff j]
      constructor
      · rintro (h | ⟨h1, h2, h3⟩)
        · exact Or.inl h
        · exact Or.inr ⟨by omega, by simp only [List.length_cons]; omega, h3⟩
      · rintro (h | ⟨h1, h2, h3⟩)
        · exact Or.inl h
        · have hji : j ≠ i := fun e => hz (e ▸ h3)
          refine Or.inr ⟨by omega, by simp only [List.length_cons] at h2; omega, h3⟩

lemma initHeap_nodup (commits : List CommitIn) (ind : List Nat) :
    (heapIdx (initHeap commits ind)).Nodup :=
  (initHeapAux_spec ind commits 0 [] (by simp [heapIdx]) (by simp [heapIdx])).1

lemma initHeap_mem (commits : List CommitIn) (ind : List Nat) (j : Nat) :
    j ∈ heapIdx (initHeap commits ind) ↔
      (j < commits.length ∧ ind.getD j 0 = 0) := by
  have := (initHeapAux_spec ind commits 0 []
    (by simp [heapIdx]) (by simp [heapIdx])).2 j
  rw [initHeap, this]
  simp [heapIdx]

lemma initHeapAux_sorted (indeg : List Nat) (cs : List CommitIn) :
    ∀ (i : Nat) (acc : List (Int × Nat)), heapSorted acc →
      heapSorted (initHeapAux i indeg cs acc) := by
  induction cs with
  | nil => intro i acc h; exact h
  | cons c t ih =>
    intro i acc h
    rw [initHeapAux]
    by_cases hz : indeg.getD i 0 = 0
    · rw [if_pos hz]
      exact ih (i + 1) _ (heapSorted_push _ _ h)
    · rw [if_neg hz]
      exact ih (i + 1) acc h

lemma initHeap_sorted (commits : List CommitIn) (ind : List Nat) :
    heapSorted (initHeap commits ind) :=
  initHeapAux_sorted ind commits 0 [] (by unfold heapSorted; simp)

/-! ### Pending-reference bookkeeping -/

lemma filter_notMem_append (N : Nat) (topo : List Nat) (idx : Nat) :
    (Finset.range N).filter (fun c => c ∉ topo ++ [idx])
      = ((Finset.range N).filter (fun c => c ∉ topo)).erase idx := by
  ext c
  simp only [Finset.mem_filter, Finset.mem_erase, List.mem_append,
    List.mem_singleton, Finset.mem_range]
  tauto

lemma pendingRefs_append (commits : List CommitIn) (m : List (String × Nat))
    (topo : List Nat) (idx j : Nat)
    (hidx : idx < commits.length) (hnot : idx ∉ topo) :
    pendingRefs commits m topo j
      = (refsFrom commits m idx).count j
        + pendingRefs commits m (topo ++ [idx]) j := by
  rw [pendingRefs, pendingRefs, filter_notMem_append]
  exact (Finset.add_sum_erase _ _
    (by simp [Finset.mem_filter, hidx, hnot])).symm

lemma pendingRefs_pos_of_child (commits : List CommitIn)
    (m : List (String × Nat)) (topo : List Nat) (c j : Nat)
    (hc : c < commits.length) (hnot : c ∉ topo)
    (hj : j ∈ refsFrom commits m c) :
    0 < pendingRefs commits m topo j := by
  rw [pendingRefs]
  refine Finset.sum_pos' (fun i _ => Nat.zero_le _) ⟨c, ?_, ?_⟩
  · simp [Finset.mem_filter, hc, hnot]
  · exact List.count_pos_iff.2 hj

lemma pendingRefs_zero_children (commits : List CommitIn)
    (m : List (String × Nat)) (topo : List Nat) (j : Nat)
    (h : pendingRefs commits m topo j = 0) :
    ∀ c, c < commits.length → j ∈ refsFrom commits m c → c ∈ topo := by
  intro c hc hj
  by_contra hnot
  have := pendingRefs_pos_of_child commits m topo c j hc hnot hj
  omega

lemma pendingRefs_pos_child (commits : List CommitIn)
    (m : List (String × Nat)) (topo : List Nat) (j : Nat)
    (h : 0 < pendingRefs commits m topo j) :
    ∃ c, c < commits.length ∧ c ∉ topo ∧ j ∈ refsFrom commits m c := by
  by_contra hc
  push_neg at hc
  have hz : pendingRefs commits m topo j = 0 := by
    rw [pendingRefs]
    refine Finset.sum_eq_zero ?_
    intro c hcmem
    simp only [Finset.mem_filter, Finset.mem_range] at hcmem
    rw [List.count_eq_zero]
    exact hc c hcmem.1 hcmem.2
  omega

/-! ### Relaxation preserves the invariant -/

lemma relaxParents_inv (commits : List CommitIn) (m : List (String × Nat))
    (hm : ∀ s pid, mapGet m s = some pid → pid < commits.length) :
    ∀ (ps : List String) (s : Sched), RelaxInv commits m ps s →
      RelaxInv commits m [] (relaxParents commits m ps s) ∧
      (relaxParents commits m ps s).topo = s.topo ∧
      (∀ x ∈ s.heap, x ∈ (relaxParents commits m ps s).heap) := by
  intro ps
  induction ps with
  | nil =>
    intro s h
    exact ⟨h, rfl, fun x hx => hx⟩
  | cons p t ih =>
    intro s h
    cases hp : mapGet m p with
    | none =>
      rw [relaxParents, hp]
      dsimp only
      apply ih
      refine ⟨h.indegLen, h.nodup, h.bounded, h.memZero, ?_, h.midPos,
        h.childrenPopped, h.orderOk⟩
      intro j h1 h2 h3
      have := h.pendMid j h1 h2 h3
      rwa [show resolveParents m (p :: t) = resolveParents m t by
        simp [resolveParents, List.filterMap_cons, hp]] at this
    | some pid =>
      rw [relaxParents, hp]
      dsimp only
      have hres : resolveParents m (p :: t) = pid :: resolveParents m t := by
        simp [resolveParents, List.filterMap_cons, hp]
      by_cases hpos : 0 < s.indeg.getD pid 0
      · rw [if_pos hpos]
        have hpidN : pid < commits.length := hm p pid hp
        have hpidLen : pid < s.indeg.length := getD_pos_lt_length _ _ hpos
        have hpidOut : pid ∉ s.topo ++ heapIdx s.heap := by
          intro hin
          have := h.memZero pid hin
          omega
        have hpidT : pid ∉ s.topo := fun hc => hpidOut (List.mem_append_left _ hc)
        have hpidH : pid ∉ heapIdx s.heap :=
          fun hc => hpidOut (List.mem_append_right _ hc)
        have hmid := h.pendMid pid hpidN hpidT hpidH
        rw [hres, List.count_cons_self] at hmid
        have hself : (s.indeg.set pid (s.indeg.getD pid 0 - 1)).getD pid 0
            = s.indeg.getD pid 0 - 1 := getD_set_self _ _ _ hpidLen
        by_cases hzero : (s.indeg.set pid (s.indeg.getD pid 0 - 1)).getD pid 0 = 0
        · rw [if_pos hzero]
          rw [hself] at hzero
          have hv1 : s.indeg.getD pid 0 = 1 := by omega
          have hpend0 : pendingRefs commits m s.topo pid = 0 ∧
              (resolveParents m t).count pid = 0 := by
            rw [hv1] at hmid
            omega
          set key : Int × Nat := ((commits.getD pid default).timestamp, pid) with hkey
          have hkey2 : key.2 = pid := rfl
          have hinv2 : RelaxInv commits m t
              { s with indeg := s.indeg.set pid (s.indeg.getD pid 0 - 1),
                       heap := heapPush key s.heap } := by
            refine ⟨?_, ?_, ?_, ?_, ?_, ?_, ?_, ?_⟩
            · simpa [List.length_set] using h.indegLen
            · have hperm : (s.topo ++ heapIdx (heapPush key s.heap)).Perm
                  (s.topo ++ (pid :: heapIdx s.heap)) :=
                List.Perm.append_left _ (hkey2 ▸ heapIdx_heapPush_perm key s.heap)
              rw [hperm.nodup_iff, List.nodup_middle, List.nodup_cons]
              exact ⟨hpidOut, h.nodup⟩
            · intro i hi
              rcases List.mem_append.1 hi with hi | hi
              · exact h.bounded i (List.mem_append_left _ hi)
              · rcases (hkey2 ▸ mem_heapIdx_heapPush key s.heap i).1 hi with rfl | hi2
                · exact hpidN
                · exact h.bounded i (List.mem_append_right _ hi2)
            · intro i hi
              rcases List.mem_append.1 hi with hi | hi
              · have hne : i ≠ pid := fun e => hpidT (e ▸ hi)
                rw [getD_set_ne _ _ _ _ hne]
                exact h.memZero i (List.mem_append_left _ hi)
              · rcases (hkey2 ▸ mem_heapIdx_heapPush key s.heap i).1 hi with rfl | hi2
                · exact hself.trans (by omega)
                · have hne : i ≠ pid := fun e => hpidH (e ▸ hi2)
                  rw [getD_set_ne _ _ _ _ hne]
                  exact h.memZero i (List.mem_append_right _ hi2)
            · intro j h1 h2 h3
              simp only at h2 h3 ⊢
              have hjpid : j ≠ pid := by
                intro e
                exact h3 ((hkey2 ▸ mem_heapIdx_heapPush key s.heap j).2
                  (Or.inl e))
              have hjh : j ∉ heapIdx s.heap :=
                fun hc => h3 ((hkey2 ▸ mem_heapIdx_heapPush key s.heap j).2
                  (Or.inr hc))
              rw [getD_set_ne _ _ _ _ hjpid]
              have := h.pendMid j h1 h2 hjh
              rw [hres, List.count_cons_of_ne (by simpa using hjpid)] at this
              exact this
            · intro j h1 h2 h3
              simp only at h2 h3 ⊢
              have hjpid : j ≠ pid := by
                intro e
                exact h3 ((hkey2 ▸ mem_heapIdx_heapPush key s.heap j).2
                  (Or.inl e))
              have hjh : j ∉ heapIdx s.heap :=
                fun hc => h3 ((hkey2 ▸ mem_heapIdx_heapPush key s.heap j).2
                  (Or.inr hc))
              rw [getD_set_ne _ _ _ _ hjpid]
              exact h.midPos j h1 h2 hjh
            · intro q hq c hc hcref
              simp only at hq
              rcases (hkey2 ▸ mem_heapIdx_heapPush key s.heap q).1 hq with rfl | hq2
              · exact pendingRefs_zero_children commits m s.topo q hpend0.1 c hc hcref
              · exact h.childrenPopped q hq2 c hc hcref
            · exact h.orderOk
          obtain ⟨ha, hb, hc2⟩ := ih _ hinv2
          refine ⟨ha, hb, ?_⟩
          intro x hx
          exact hc2 x ((mem_heapPush key x s.heap).2 (Or.inr hx))
        · rw [if_neg hzero]
          rw [hself] at hzero
          have hinv2 : RelaxInv commits m t
              { s with indeg := s.indeg.set pid (s.indeg.getD pid 0 - 1) } := by
            refine ⟨?_, h.nodup, h.bounded, ?_, ?_, ?_, h.childrenPopped,
              h.orderOk⟩
            · simpa [List.length_set] using h.indegLen
            · intro i hi
              have hne : i ≠ pid := fun e => hpidOut (e ▸ hi)
              rw [getD_set_ne _ _ _ _ hne]
              exact h.memZero i hi
            · intro j h1 h2 h3
              simp only at h2 h3 ⊢
              by_cases hjpid : j = pid
              · subst hjpid
                rw [hself]
                omega
              · rw [getD_set_ne _ _ _ _ hjpid]
                have := h.pendMid j h1 h2 h3
                rw [hres, List.count_cons_of_ne (by simpa using hjpid)] at this
                exact this
            · intro j h1 h2 h3
              simp only at h2 h3 ⊢
              by_cases hjpid : j = pid
              · subst hjpid
                rw [hself]
                omega
              · rw [getD_set_ne _ _ _ _ hjpid]
                exact h.midPos j h1 h2 h3
          exact ih _ hinv2
      · rw [if_neg hpos]
        apply ih
        have hz : s.indeg.getD pid 0 = 0 := by omega
        refine ⟨h.indegLen, h.nodup, h.bounded, h.memZero, ?_, h.midPos,
          h.childrenPopped, h.orderOk⟩
        intro j h1 h2 h3
        have hjpid : j ≠ pid := by
          intro e
          have := h.midPos j h1 h2 h3
          rw [e, hz] at this
          omega
        have := h.pendMid j h1 h2 h3
        rwa [hres, List.count_cons_of_ne (by simpa using hjpid)] at this

/-! ### One pop step preserves the invariant -/

lemma relaxInv_nil_to_schedInv {commits : List CommitIn}
    {m : List (String × Nat)} {s : Sched} (h : RelaxInv commits m [] s) :
    SchedInv commits m s := by
  refine ⟨h.indegLen, h.nodup, h.bounded, h.memZero, ?_, h.midPos,
    h.childrenPopped, h.orderOk⟩
  intro j h1 h2 h3
  have := h.pendMid j h1 h2 h3
  simpa [resolveParents] using this

lemma schedStep_inv (commits : List CommitIn) (m : List (String × Nat))
    (hm : ∀ s pid, mapGet m s = some pid → pid < commits.length)
    (s : Sched) (hinv : SchedInv commits m s)
    (k : Int × Nat) (rest : List (Int × Nat)) (hheap : s.heap = k :: rest) :
    SchedInv commits m
      (relaxParents commits m (commits.getD k.2 default).parents
        { indeg := s.indeg, heap := rest, topo := s.topo ++ [k.2] }) := by
  have hidxmem : k.2 ∈ heapIdx s.heap := by
    rw [hheap, heapIdx, List.map_cons]
    exact List.mem_cons_self _ _
  have hidxN : k.2 < commits.length :=
    hinv.bounded _ (List.mem_append_right _ hidxmem)
  have hidxTopo : k.2 ∉ s.topo := by
    intro hc
    have hnd := (List.nodup_append.1 hinv.nodup).2.2
    exact hnd hc hidxmem
  have hheapIdx : heapIdx s.heap = k.2 :: heapIdx rest := by
    rw [hheap]
    rfl
  have hidxRest : k.2 ∉ heapIdx rest := by
    intro hc
    have hnd := (List.nodup_append.1 hinv.nodup).2.1
    rw [hheapIdx] at hnd
    exact (List.nodup_cons.1 hnd).1 hc
  have hrelax : RelaxInv commits m (commits.getD k.2 default).parents
      { indeg := s.indeg, heap := rest, topo := s.topo ++ [k.2] } := by
    refine ⟨hinv.indegLen, ?_, ?_, ?_, ?_, ?_, ?_, ?_⟩
    · have := hinv.nodup
      rw [hheapIdx] at this
      simpa [List.append_assoc] using this
    · intro i hi
      apply hinv.bounded
      rw [hheapIdx]
      simp only [List.append_assoc, List.singleton_append, List.mem_append,
        List.mem_cons] at hi ⊢
      tauto
    · intro i hi
      apply hinv.memZero
      rw [hheapIdx]
      simp only [List.append_assoc, List.singleton_append, List.mem_append,
        List.mem_cons] at hi ⊢
      tauto
    · intro j h1 h2 h3
      simp only [List.mem_append, List.mem_singleton] at h2
      push_neg at h2
      have hjheap : j ∉ heapIdx s.heap := by
        rw [hheapIdx]
        simp only [List.mem_cons]
        rintro (rfl | hc)
        · exact h2.2 rfl
        · exact h3 hc
      have hpend := hinv.pending j h1 h2.1 hjheap
      rw [hpend, pendingRefs_append commits m s.topo k.2 j hidxN hidxTopo]
      exact Nat.add_comm _ _
    · intro j h1 h2 h3
      simp only [List.mem_append, List.mem_singleton] at h2
      push_neg at h2
      have hjheap : j ∉ heapIdx s.heap := by
        rw [hheapIdx]
        simp only [List.mem_cons]
        rintro (rfl | hc)
        · exact h2.2 rfl
        · exact h3 hc
      exact hinv.pendingPos j h1 h2.1 hjheap
    · intro p hp c hc hcref
      have : p ∈ heapIdx s.heap := by
        rw [hheapIdx]
        exact List.mem_cons_of_mem _ hp
      exact List.mem_append_left _ (hinv.childrenPopped p this c hc hcref)
    · intro p hp c hc hcref
      rcases List.mem_append.1 hp with hp | hp
      · obtain ⟨hcin, hlt⟩ := hinv.orderOk p hp c hc hcref
        refine ⟨List.mem_append_left _ hcin, ?_⟩
        rw [List.indexOf_append_of_mem hcin, List.indexOf_append_of_mem hp]
        exact hlt
      · rw [List.mem_singleton] at hp
        subst hp
        have hcin : c ∈ s.topo := hinv.childrenPopped k.2 hidxmem c hc hcref
        refine ⟨List.mem_append_left _ hcin, ?_⟩
        rw [List.indexOf_append_of_mem hcin,
          List.indexOf_append_of_not_mem hidxTopo]
        have : s.topo.indexOf c < s.topo.length := List.indexOf_lt_length.2 hcin
        simp only [List.indexOf_cons_self]
        omega
  have := relaxParents_inv commits m hm (commits.getD k.2 default).parents _ hrelax
  exact relaxInv_nil_to_schedInv this.1

/-! ### Measure decrease and the loop -/

lemma relaxParents_measure (commits : List CommitIn) (m : List (String × Nat)) :
    ∀ (ps : List String) (s : Sched),
      schedMeasure (relaxParents commits m ps s) ≤ schedMeasure s := by
  intro ps
  induction ps with
  | nil => intro s; exact Nat.le_refl _
  | cons p t ih =>
    intro s
    cases hp : mapGet m p with
    | none =>
      rw [relaxParents, hp]
      exact ih s
    | some pid =>
      rw [relaxParents, hp]
      dsimp only
      by_cases hpos : 0 < s.indeg.getD pid 0
      · rw [if_pos hpos]
        have hsum : (s.indeg.set pid (s.indeg.getD pid 0 - 1)).sum + 1
            = s.indeg.sum := sum_set_pred _ _ hpos
        by_cases hzero :
            (s.indeg.set pid (s.indeg.getD pid 0 - 1)).getD pid 0 = 0
        · rw [if_pos hzero]
          refine le_trans (ih _) ?_
          simp only [schedMeasure, heapPush_length]
          omega
        · rw [if_neg hzero]
          refine le_trans (ih _) ?_
          simp only [schedMeasure]
          omega
      · rw [if_neg hpos]
        exact ih s

lemma schedLoop_inv (commits : List CommitIn) (m : List (String × Nat))
    (hm : ∀ s pid, mapGet m s = some pid → pid < commits.length) :
    ∀ (fuel : Nat) (s : Sched), SchedInv commits m s →
      schedMeasure s ≤ fuel →
      SchedInv commits m (schedLoop commits m fuel s) ∧
      (schedLoop commits m fuel s).heap = [] := by
  intro fuel
  induction fuel with
  | zero =>
    intro s hinv hle
    have : s.heap.length = 0 := by
      have := hle
      simp only [schedMeasure, Nat.le_zero] at this
      omega
    rw [schedLoop]
    exact ⟨hinv, List.length_eq_zero.1 this⟩
  | succ fuel ih =>
    intro s hinv hle
    rw [schedLoop]
    cases hheap : s.heap with
    | nil => exact ⟨hinv, hheap⟩
    | cons k rest =>
      obtain ⟨t, idx⟩ := k
      dsimp only
      have hstep := schedStep_inv commits m hm s hinv (t, idx) rest hheap
      apply ih _ hstep
      dsimp only
      have h1 : schedMeasure (⟨s.indeg, rest, s.topo ++ [idx]⟩ : Sched) + 1
          = schedMeasure s := by
        show s.indeg.sum + rest.length + 1 = s.indeg.sum + s.heap.length
        rw [hheap, List.length_cons]
        omega
      have h2 := relaxParents_measure commits m
        (commits.getD idx default).parents
        (⟨s.indeg, rest, s.topo ++ [idx]⟩ : Sched)
      have h3 : schedMeasure s ≤ fuel + 1 := hle
      omega

/-! ### Final scheduler state -/

lemma scheduleState_spec (commits : List CommitIn) :
    SchedInv commits (buildMap commits) (scheduleState commits) ∧
    (scheduleState commits).heap = [] := by
  have hm : ∀ s pid, mapGet (buildMap commits) s = some pid →
      pid < commits.length := fun s pid h => mapGet_buildMap_lt commits s pid h
  set m := buildMap commits
  set ind := buildIndeg commits m with hind
  set h0 := initHeap commits ind with hh0
  have hinvInit : SchedInv commits m ⟨ind, h0, []⟩ := by
    refine ⟨buildIndeg_length commits m, ?_, ?_, ?_, ?_, ?_, ?_, ?_⟩
    · simpa using initHeap_nodup commits ind
    · intro i hi
      simp only [List.nil_append] at hi
      exact ((initHeap_mem commits ind i).1 hi).1
    · intro i hi
      simp only [List.nil_append] at hi
      exact ((initHeap_mem commits ind i).1 hi).2
    · intro j h1 _ _
      exact buildIndeg_getD commits m j h1
    · intro j h1 _ h3
      have hne : ¬ (j < commits.length ∧ ind.getD j 0 = 0) :=
        fun hc => h3 ((initHeap_mem commits ind j).2 hc)
      push_neg at hne
      have := hne h1
      show 0 < ind.getD j 0
      omega
    · intro p hp c hc hcref
      have hpN : p < commits.length := ((initHeap_mem commits ind p).1 hp).1
      have hz : ind.getD p 0 = 0 := ((initHeap_mem commits ind p).1 hp).2
      rw [buildIndeg_getD commits m p hpN] at hz
      exact pendingRefs_zero_children commits m [] p hz c hc hcref
    · intro p hp
      exact absurd hp (List.not_mem_nil p)
  have hfuel : schedMeasure ⟨ind, h0, []⟩ ≤ ind.sum + h0.length :=
    Nat.le_refl _
  have := schedLoop_inv commits m hm (ind.sum + h0.length) ⟨ind, h0, []⟩
    hinvInit hfuel
  exact this

lemma scheduleState_topo_nodup (commits : List CommitIn) :
    (scheduleState commits).topo.Nodup := by
  have h := (scheduleState_spec commits).1.nodup
  exact (List.nodup_append.1 h).1

lemma scheduleState_topo_lt (commits : List CommitIn) :
    ∀ x ∈ (scheduleState commits).topo, x < commits.length := by
  intro x hx
  exact (scheduleState_spec commits).1.bounded x (List.mem_append_left _ hx)

/-! ### The emitted order is a permutation of the input indices -/

lemma topo_append_perm (N : Nat) (T : List Nat) (hnd : T.Nodup)
    (hb : ∀ x ∈ T, x < N) :
    (T ++ (List.range N).filter (fun i => !(T.contains i))).Perm
      (List.range N) := by
  rw [List.perm_ext_iff_of_nodup ?_ (List.nodup_range N)]
  · intro a
    simp only [List.mem_append, List.mem_filter, List.mem_range,
      Bool.not_eq_true', List.contains_eq_any_beq]
    constructor
    · rintro (h | ⟨h1, _⟩)
      · exact hb a h
      · exact h1
    · intro h
      by_cases hmem : a ∈ T
      · exact Or.inl hmem
      · refine Or.inr ⟨h, ?_⟩
        rw [List.any_eq_false]
        intro x hx
        simp only [beq_iff_eq]
        intro e
        exact hmem (e ▸ hx)
  · rw [List.nodup_append]
    refine ⟨hnd, List.Nodup.filter _ (List.nodup_range N), ?_⟩
    intro a haT haF
    rw [List.mem_filter] at haF
    have := haF.2
    simp only [Bool.not_eq_true', List.contains_eq_any_beq,
      List.any_eq_false] at this
    exact this a haT (by simp)

lemma schedule_eq_append (commits : List CommitIn) :
    schedule commits = (scheduleState commits).topo
      ++ (List.range commits.length).filter
          (fun i => !((scheduleState commits).topo.contains i)) := by
  rw [schedule]
  by_cases hlen : (scheduleState commits).topo.length ≠ commits.length
  · rw [if_pos hlen]
  · rw [if_neg hlen]
    push_neg at hlen
    have hperm := topo_append_perm commits.length (scheduleState commits).topo
      (scheduleState_topo_nodup commits) (scheduleState_topo_lt commits)
    have hlength := hperm.length_eq
    rw [List.length_append, List.length_range, hlen] at hlength
    have : ((List.range commits.length).filter
        (fun i => !((scheduleState commits).topo.contains i))).length = 0 := by
      omega
    rw [List.length_eq_zero.1 this, List.append_nil]

lemma schedule_perm (commits : List CommitIn) :
    (schedule commits).Perm (List.range commits.length) := by
  rw [schedule_eq_append]
  exact topo_append_perm commits.length (scheduleState commits).topo
    (scheduleState_topo_nodup commits) (scheduleState_topo_lt commits)

lemma schedule_length (commits : List CommitIn) :
    (schedule commits).length = commits.length := by
  have := (schedule_perm commits).length_eq
  simpa using this

/-! ### Cycle-free inputs are fully popped, children before parents -/

lemma exists_cycle_of_child (N : Nat) (r : Nat → Nat → Prop)
    (P : Nat → Prop) (hP : ∀ u, P u → u < N)
    (hchild : ∀ u, P u → ∃ c, P c ∧ r c u)
    (u0 : Nat) (hu0 : P u0) :
    ∃ x, Relation.TransGen r x x := by
  classical
  let F : {x : Nat // P x} → {x : Nat // P x} := fun u =>
    ⟨(hchild u.1 u.2).choose, (hchild u.1 u.2).choose_spec.1⟩
  have hF : ∀ u : {x : Nat // P x}, r (F u).1 u.1 :=
    fun u => (hchild u.1 u.2).choose_spec.2
  let f : Nat → {x : Nat // P x} := fun n => F^[n] ⟨u0, hu0⟩
  have hstep : ∀ n, r (f (n + 1)).1 (f n).1 := by
    intro n
    have : f (n + 1) = F (f n) := Function.iterate_succ_apply' F n _
    rw [this]
    exact hF (f n)
  have htrans : ∀ d n, Relation.TransGen r (f (n + d + 1)).1 (f n).1 := by
    intro d
    induction d with
    | zero => intro n; exact Relation.TransGen.single (hstep n)
    | succ d ihd =>
      intro n
      have h1 : r (f (n + d + 2)).1 (f (n + d + 1)).1 := hstep (n + d + 1)
      have h2 : Relation.TransGen r (f (n + d + 1)).1 (f n).1 := ihd n
      have : n + (d + 1) + 1 = n + d + 2 := by omega
      rw [this]
      exact Relation.TransGen.head h1 h2
  have hmaps : ∀ k ∈ Finset.range (N + 1), (f k).1 ∈ Finset.range N := by
    intro k _
    simp only [Finset.mem_range]
    exact hP (f k).1 (f k).2
  obtain ⟨a, ha, b, hb, hab, heq⟩ :=
    Finset.exists_ne_map_eq_of_card_lt_of_maps_to
      (by simp : (Finset.range N).card < (Finset.range (N + 1)).card) hmaps
  rcases Nat.lt_or_ge a b with hlt | hge
  · refine ⟨(f b).1, ?_⟩
    have hb2 : b = a + (b - a - 1) + 1 := by omega
    have := htrans (b - a - 1) a
    rw [← hb2] at this
    rw [← heq] at this
    exact heq ▸ this
  · have hlt : b < a := by omega
    refine ⟨(f a).1, ?_⟩
    have ha2 : a = b + (a - b - 1) + 1 := by omega
    have := htrans (a - b - 1) b
    rw [← ha2] at this
    rw [heq] at this
    exact heq ▸ this

lemma refsFrom_lt (commits : List CommitIn) (c p : Nat)
    (h : p ∈ refsFrom commits (buildMap commits) c) : p < commits.length := by
  rw [refsFrom, resolveParents] at h
  obtain ⟨s, _, hs⟩ := List.mem_filterMap.1 h
  exact mapGet_buildMap_lt commits s p hs

lemma cycleFree_all_popped (commits : List CommitIn)
    (hcf : CycleFree commits) :
    (scheduleState commits).topo.length = commits.length := by
  by_contra hne
  obtain ⟨hinv, hheap⟩ := scheduleState_spec commits
  set T := (scheduleState commits).topo with hT
  have hperm := topo_append_perm commits.length T
    (scheduleState_topo_nodup commits) (scheduleState_topo_lt commits)
  have hlen := hperm.length_eq
  rw [List.length_append, List.length_range] at hlen
  have hFpos : 0 < ((List.range commits.length).filter
      (fun i => !(T.contains i))).length := by
    have : T.length ≤ commits.length := by
      have hsub : T.Nodup := scheduleState_topo_nodup commits
      -- from the permutation length identity
      omega
    omega
  obtain ⟨u0, hu0⟩ := List.exists_mem_of_length_pos hFpos
  rw [List.mem_filter, List.mem_range] at hu0
  have hu0T : u0 ∉ T := by
    have := hu0.2
    simp only [Bool.not_eq_true', List.contains_eq_any_beq,
      List.any_eq_false] at this
    exact fun hc => (by simpa using this u0 hc)
  have hchild : ∀ u, (u < commits.length ∧ u ∉ T) →
      ∃ c, (c < commits.length ∧ c ∉ T) ∧ childParent commits c u := by
    rintro u ⟨huN, huT⟩
    have huheap : u ∉ heapIdx (scheduleState commits).heap := by
      rw [hheap]
      simp [heapIdx]
    have hpend := hinv.pending u huN huT huheap
    have hpos := hinv.pendingPos u huN huT huheap
    rw [hpend] at hpos
    obtain ⟨c, hcN, hcT, hcref⟩ :=
      pendingRefs_pos_child commits (buildMap commits) T u hpos
    exact ⟨c, ⟨hcN, hcT⟩, hcN, hcref⟩
  obtain ⟨x, hx⟩ := exists_cycle_of_child commits.length
    (childParent commits) (fun u => u < commits.length ∧ u ∉ T)
    (fun u hu => hu.1) hchild u0 ⟨hu0.1, hu0T⟩
  exact hcf x hx

lemma schedule_eq_topo_of_cycleFree (commits : List CommitIn)
    (hcf : CycleFree commits) :
    schedule commits = (scheduleState commits).topo := by
  rw [schedule]
  rw [if_neg (by simpa using cycleFree_all_popped commits hcf)]

lemma schedule_order (commits : List CommitIn) (hcf : CycleFree commits)
    (c p : Nat) (hcp : childParent commits c p) :
    (schedule commits).indexOf c < (schedule commits).indexOf p := by
  obtain ⟨hinv, _⟩ := scheduleState_spec commits
  rw [schedule_eq_topo_of_cycleFree commits hcf]
  have hpN : p < commits.length := refsFrom_lt commits c p hcp.2
  have hpT : p ∈ (scheduleState commits).topo := by
    have hperm := schedule_perm commits
    rw [schedule_eq_topo_of_cycleFree commits hcf] at hperm
    exact hperm.mem_iff.2 (List.mem_range.2 hpN)
  exact (hinv.orderOk p hpT c hcp.1 hcp.2).2

/-! ### Lane allocation: structural lemmas -/

lemma allocOne_laneOf_length (commits : List CommitIn)
    (m : List (String × Nat)) (s : LaneSt) (ci : Nat) (s' : LaneSt)
    (h : allocOne commits m s ci = .ok s') :
    s'.laneOf.length = s.laneOf.length := by
  unfold allocOne at h
  dsimp only at h
  split at h
  · split at h
    · cases h
      simp [List.length_set]
    · cases h
  · cases h

lemma laneAlloc_laneOf_length (commits : List CommitIn)
    (m : List (String × Nat)) :
    ∀ (topo : List Nat) (s s' : LaneSt),
      laneAlloc commits m topo s = .ok s' →
      s'.laneOf.length = s.laneOf.length := by
  intro topo
  induction topo with
  | nil =>
    intro s s' h
    cases h
    rfl
  | cons ci rest ih =>
    intro s s' h
    rw [laneAlloc] at h
    cases hone : allocOne commits m s ci with
    | ok s1 =>
      rw [hone] at h
      dsimp only at h
      rw [ih s1 s' h, allocOne_laneOf_length commits m s ci s1 hone]
    | error e =>
      rw [hone] at h
      cases h

/-! ### Encoder: structural lemmas -/

lemma u16le_length (n : Nat) : (u16le n).length = 2 := rfl

lemma u32le_length (n : Nat) : (u32le n).length = 4 := rfl

lemma u64le_length (n : Nat) : (u64le n).length = 8 := rfl

lemma commitChunk_length (commits : List CommitIn) (laneOf : List Nat)
    (pos ci : Nat) : (commitChunk commits laneOf pos ci).length = 14 := rfl

lemma edgeChunk_length (laneOf : List Nat) (c p : Nat) :
    (edgeChunk laneOf c p).length = 24 := rfl

lemma encodeCommitsAux_length (commits : List CommitIn) (laneOf : List Nat) :
    ∀ (topo : List Nat) (pos : Nat),
      (encodeCommitsAux commits laneOf pos topo).length = 14 * topo.length := by
  intro topo
  induction topo with
  | nil => intro pos; rfl
  | cons ci rest ih =>
    intro pos
    rw [encodeCommitsAux, List.length_append, commitChunk_length, ih,
      List.length_cons]
    ring

lemma encodeCommitsAux_eq_enumFrom (commits : List CommitIn)
    (laneOf : List Nat) :
    ∀ (topo : List Nat) (pos : Nat),
      encodeCommitsAux commits laneOf pos topo
        = (List.enumFrom pos topo).flatMap (fun pi =>
            u16le (laneOf.getD pi.2 0) ++ u32le (pi.1 % 2 ^ 32)
              ++ u64le (f64bits (commits.getD pi.2 default).timestamp)) := by
  intro topo
  induction topo with
  | nil => intro pos; rfl
  | cons ci rest ih =>
    intro pos
    rw [encodeCommitsAux, List.enumFrom_cons, List.flatMap_cons, ih]
    rw [commitChunk, List.append_assoc]

lemma encodeEdges_ok_eq (laneOf : List Nat) :
    ∀ (eds : List (Nat × Nat)) (bs : List Nat),
      encodeEdges laneOf eds = .ok bs →
      bs = eds.flatMap (fun e => edgeChunk laneOf e.1 e.2) := by
  intro eds
  induction eds with
  | nil =>
    intro bs h
    cases h
    rfl
  | cons e rest ih =>
    intro bs h
    obtain ⟨c, p⟩ := e
    rw [encodeEdges] at h
    split at h
    · cases h
    · split at h
      · cases h
        rw [List.flatMap_cons]
        congr 1
        exact ih _ (by assumption)
      · cases h

lemma encodeEdges_ok_of_bounds (laneOf : List Nat) :
    ∀ (eds : List (Nat × Nat)),
      (∀ e ∈ eds, e.1 < laneOf.length ∧ e.2 < laneOf.length) →
      encodeEdges laneOf eds
        = .ok (eds.flatMap (fun e => edgeChunk laneOf e.1 e.2)) := by
  intro eds
  induction eds with
  | nil => intro _; rfl
  | cons e rest ih =>
    intro hb
    obtain ⟨c, p⟩ := e
    have h1 : c < laneOf.length := (hb (c, p) (List.mem_cons_self _ _)).1
    have h2 : p < laneOf.length := (hb (c, p) (List.mem_cons_self _ _)).2
    have hcond : ¬ ((c ≥ laneOf.length || p ≥ laneOf.length) = true) := by
      simp only [Bool.or_eq_true, decide_eq_true_eq, not_or]
      constructor <;> omega
    rw [encodeEdges, if_neg hcond,
      ih (fun e he => hb e (List.mem_cons_of_mem _ he))]
    rfl

lemma encodeEdges_error_head (laneOf : List Nat) (c p : Nat)
    (eds : List (Nat × Nat))
    (h : laneOf.length ≤ c ∨ laneOf.length ≤ p) :
    encodeEdges laneOf ((c, p) :: eds)
      = .error (.js (edgeOobMsg c p laneOf.length)) := by
  rw [encodeEdges,
    if_pos (by simp only [Bool.or_eq_true, decide_eq_true_eq]; omega)]

lemma flatMap_edgeChunk_length (laneOf : List Nat) :
    ∀ (eds : List (Nat × Nat)),
      (eds.flatMap (fun e => edgeChunk laneOf e.1 e.2)).length
        = 24 * eds.length := by
  intro eds
  induction eds with
  | nil => rfl
  | cons e rest ih =>
    rw [List.flatMap_cons, List.length_append, edgeChunk_length, ih,
      List.length_cons]
    ring

/-! ### Edge construction: bounds and count -/

lemma buildEdgesAux_bounds (m : List (String × Nat)) (N : Nat)
    (hm : ∀ s pid, mapGet m s = some pid → pid < N) :
    ∀ (cs : List CommitIn) (i : Nat), i + cs.length ≤ N →
      ∀ e ∈ buildEdgesAux m i cs, e.1 < N ∧ e.2 < N := by
  intro cs
  induction cs with
  | nil =>
    intro i _ e he
    exact absurd he (List.not_mem_nil e)
  | cons c rest ih =>
    intro i hlen e he
    rw [buildEdgesAux] at he
    rcases List.mem_append.1 he with he | he
    · obtain ⟨pid, hpid, rfl⟩ := List.mem_map.1 he
      rw [resolveParents] at hpid
      obtain ⟨ps, _, hps⟩ := List.mem_filterMap.1 hpid
      have hpidN : pid < N := hm ps pid hps
      have hiN : i < N := by
        simp only [List.length_cons] at hlen
        omega
      constructor
      · exact Nat.lt_of_le_of_lt (Nat.mod_le _ _) hiN
      · exact Nat.lt_of_le_of_lt (Nat.mod_le _ _) hpidN
    · refine ih (i + 1) ?_ e he
      simp only [List.length_cons] at hlen
      omega

lemma buildEdges_bounds (commits : List CommitIn) :
    ∀ e ∈ buildEdges commits (buildMap commits),
      e.1 < commits.length ∧ e.2 < commits.length := by
  intro e he
  exact buildEdgesAux_bounds (buildMap commits) commits.length
    (fun s pid h => mapGet_buildMap_lt commits s pid h)
    commits 0 (by omega) e he

lemma buildEdgesAux_length (m : List (String × Nat)) :
    ∀ (cs : List CommitIn) (i : Nat),
      (buildEdgesAux m i cs).length
        = (cs.map (fun c => (resolveParents m c.parents).length)).sum := by
  intro cs
  induction cs with
  | nil => intro i; rfl
  | cons c rest ih =>
    intro i
    rw [buildEdgesAux, List.length_append, List.length_map, List.map_cons,
      List.sum_cons, ih]

lemma buildEdges_count (commits : List CommitIn) :
    (buildEdges commits (buildMap commits)).length
      = numResolvableRefs commits := by
  rw [buildEdges, buildEdgesAux_length, numResolvableRefs]

/-! ### Success shape of the whole pipeline -/

lemma buildLanesCommits_ok (commits : List CommitIn) (buf : List Nat)
    (h : buildLanesCommits commits = .ok buf) :
    ∃ st : LaneSt,
      laneAlloc commits (buildMap commits) (schedule commits)
          ⟨[], List.replicate commits.length 65535⟩ = .ok st ∧
      buf = u32le (commits.length % 2 ^ 32)
          ++ u32le ((buildEdges commits (buildMap commits)).length % 2 ^ 32)
          ++ encodeCommits commits st.laneOf (schedule commits)
          ++ (buildEdges commits (buildMap commits)).flatMap
              (fun e => edgeChunk st.laneOf e.1 e.2) := by
  unfold buildLanesCommits at h
  dsimp only at h
  split at h
  · cases h
  · rename_i st hst
    split at h
    · cases h
    · rename_i bs hbs
      cases h
      exact ⟨st, hst, by rw [encodeEdges_ok_eq st.laneOf _ bs hbs,
        List.append_assoc, List.append_assoc]⟩

/-! ### Deserializer error classification -/

lemma asString_error (j : Json) (e : String) (h : asString j = .error e) :
    e ∈ deserErrMsgs := by
  unfold asString at h
  split at h
  · exact Except.noConfusion h
  · cases h
    simp [deserErrMsgs]

lemma asInt_error (j : Json) (e : String) (h : asInt j = .error e) :
    e ∈ deserErrMsgs := by
  unfold asInt at h
  split at h
  · exact Except.noConfusion h
  · cases h
    simp [deserErrMsgs]

lemma asStringList_error :
    ∀ (xs : List Json) (e : String), asStringList xs = .error e →
      e ∈ deserErrMsgs := by
  intro xs
  induction xs with
  | nil =>
    intro e h
    exact Except.noConfusion h
  | cons x t ih =>
    intro e h
    rw [asStringList] at h
    split at h
    · cases h
      exact asString_error x _ (by assumption)
    · split at h
      · cases h
        exact ih _ (by assumption)
      · exact Except.noConfusion h

lemma asStringArr_error (j : Json) (e : String)
    (h : asStringArr j = .error e) : e ∈ deserErrMsgs := by
  unfold asStringArr at h
  split at h
  · exact asStringList_error _ e h
  · cases h
    simp [deserErrMsgs]

lemma reqField_error (fs : List (String × Json)) (k : String) (e : String)
    (h : reqField fs k = .error e) : e ∈ deserErrMsgs := by
  unfold reqField at h
  split at h
  · exact Except.noConfusion h
  · cases h
    simp [deserErrMsgs]

lemma optStringField_error (fs : List (String × Json)) (k : String)
    (e : String) (h : optStringField fs k = .error e) : e ∈ deserErrMsgs := by
  unfold optStringField at h
  split at h
  · exact Except.noConfusion h
  · exact Except.noConfusion h
  · exact Except.noConfusion h
  · cases h
    simp [deserErrMsgs]

lemma deserCommit_error (j : Json) (e : String)
    (h : deserCommit j = .error e) : e ∈ deserErrMsgs := by
  unfold deserCommit at h
  split at h
  · split at h
    · cases h
      exact reqField_error _ _ _ (by assumption)
    · split at h
      · cases h
        exact asString_error _ _ (by assumption)
      · split at h
        · cases h
          exact reqField_error _ _ _ (by assumption)
        · split at h
          · cases h
            exact asStringArr_error _ _ (by assumption)
          · split at h
            · cases h
              exact reqField_error _ _ _ (by assumption)
            · split at h
              · cases h
                exact asInt_error _ _ (by assumption)
              · split at h
                · cases h
                  exact optStringField_error _ _ _ (by assumption)
                · split at h
                  · cases h
                    exact optStringField_error _ _ _ (by assumption)
                  · exact Except.noConfusion h
  · cases h
    simp [deserErrMsgs]

lemma deserList_error :
    ∀ (xs : List Json) (e : String), deserList xs = .error e →
      e ∈ deserErrMsgs := by
  intro xs
  induction xs with
  | nil =>
    intro e h
    exact Except.noConfusion h
  | cons x t ih =>
    intro e h
    rw [deserList] at h
    split at h
    · cases h
      exact deserCommit_error x _ (by assumption)
    · split at h
      · cases h
        exact ih _ (by assumption)
      · exact Except.noConfusion h

lemma deserCommits_error (j : Json) (e : String)
    (h : deserCommits j = .error e) : e ∈ deserErrMsgs := by
  unfold deserCommits at h
  split at h
  · exact deserList_error _ e h
  · cases h
    simp [deserErrMsgs]

/-- A parse error never carries the panic marker: the boundary error for an
internal fault is distinguishable from every input-validation error. -/
lemma ne_panicMark_append (e : String) (he : e ∈ deserErrMsgs) (t : String) :
    e ≠ panicMark ++ t := by
  intro hEq
  have h2 := congrArg String.data hEq
  rw [String.data_append] at h2
  have h3 := congrArg List.head? h2
  have hp : (panicMark.data ++ t.data).head? = some 'p' := by
    have hd : panicMark.data = 'p' :: "anic in build_lanes: ".data := by decide
    rw [hd]
    rfl
  rw [hp] at h3
  simp only [deserErrMsgs, List.mem_cons, List.mem_singleton,
    List.not_mem_nil, or_false] at he
  rcases he with rfl | rfl | rfl | rfl | rfl | rfl <;>
    exact absurd h3 (by decide)

/-! ### Boundary behaviour -/

lemma build_lanes_parse_error (j : Json) (e : String)
    (h : deserCommits j = .error e) : build_lanes j = .error e := by
  unfold build_lanes buildLanesInner
  rw [h]

lemma build_lanes_fault (j : Json) (s : String)
    (h : buildLanesInner j = .error (.fault s)) :
    build_lanes j = .error (panicMark ++ s) := by
  unfold build_lanes
  rw [h]

lemma build_lanes_ok_deser (j : Json) (buf : List Nat)
    (h : build_lanes j = .ok buf) :
    ∃ commits, deserCommits j = .ok commits := by
  cases hd : deserCommits j with
  | ok commits => exact ⟨commits, rfl⟩
  | error e =>
    have := build_lanes_parse_error j e hd
    rw [this] at h
    exact Except.noConfusion h

/-! ### Last-occurrence support for duplicate identifiers -/

lemma lastIdxFrom_eq_none (s : String) :
    ∀ (cs : List CommitIn) (i : Nat),
      (∀ k, k < cs.length → (cs.getD k default).sha ≠ s) →
      lastIdxFrom s i cs = none := by
  intro cs
  induction cs with
  | nil => intro i _; rfl
  | cons c t ih =>
    intro i hnone
    rw [lastIdxFrom, ih (i + 1) (fun k hk =>
      by simpa using hnone (k + 1) (by simpa using hk))]
    rw [if_neg (by simpa using hnone 0 (by simp))]

lemma lastIdxFrom_last (s : String) :
    ∀ (cs : List CommitIn) (i k : Nat), k < cs.length →
      (cs.getD k default).sha = s →
      (∀ j, k < j → j < cs.length → (cs.getD j default).sha ≠ s) →
      lastIdxFrom s i cs = some (i + k) := by
  intro cs
  induction cs with
  | nil =>
    intro i k hk
    simp at hk
  | cons c t ih =>
    intro i k hk hs hlast
    cases k with
    | zero =>
      have hnone : lastIdxFrom s (i + 1) t = none := by
        apply lastIdxFrom_eq_none
        intro k2 hk2
        have := hlast (k2 + 1) (by omega) (by simpa using hk2)
        simpa using this
      rw [lastIdxFrom, hnone]
      simp only [List.getD_cons_zero] at hs
      rw [if_pos hs]
      rfl
    | succ k' =>
      have hrec := ih (i + 1) k' (by simpa using hk)
        (by simpa using hs)
        (fun j hj1 hj2 => by
          have := hlast (j + 1) (by omega) (by simpa using hj2)
          simpa using this)
      have harith : i + 1 + k' = i + (k' + 1) := by omega
      rw [harith] at hrec
      rw [lastIdxFrom, hrec]

/-- A ranking that strictly increases along child→parent edges rules out
cycles. -/
lemma rank_cycleFree (commits : List CommitIn) (rank : Nat → Nat)
    (hr : ∀ c p, childParent commits c p → rank c < rank p) :
    CycleFree commits := by
  intro x hx
  have hmono : ∀ a b, Relation.TransGen (childParent commits) a b →
      rank a < rank b := by
    intro a b h
    induction h with
    | single h => exact hr _ _ h
    | tail _ h2 ih => exact lt_trans ih (hr _ _ h2)
  exact absurd (hmono x x hx) (lt_irrefl _)

/-! ## The claims -/

/-- C1: the claim states that a commit inherits the lane of the first
parent that currently occupies an active lane, takes the lowest empty
slot otherwise, grows the lane list as a last resort, and that the lanes
of laned parents are freed afterwards.  The code instead compares
`lane_of[pid] as usize` (at most 65535) against `usize::MAX`, so the
"occupies a lane" test is vacuously true: on the two-commit chain the
child's unassigned parent yields lane 65535 and indexing `active[65535]`
panics.  This theorem evaluates the code at that failing input: the scan
returns `some 65535` for a parent that occupies no lane, and the whole
pipeline ends in the out-of-bounds fault instead of an assignment. -/
theorem c1_sentinel_defect_eval :
    findParentLane (buildMap twoChain) (List.replicate twoChain.length 65535)
        (twoChain.getD 0 default).parents = some 65535 ∧
    buildLanesCommits twoChain = .error (.fault (oobMsg 0 65535)) :=
  ⟨rfl, rfl⟩

/-- C2: the claim states that on the chain `c3 → c2 → c1` the pipeline
succeeds with visitation order `[c3, c2, c1]` and lane 0 everywhere.  The
visitation order is as claimed, but the lane allocator's widened-sentinel
defect (§4.3) makes the run panic (caught as a fault) instead of
succeeding with lane 0. -/
theorem c2_scenarioA_eval :
    schedule scenA = [0, 1, 2] ∧
    buildLanesCommits scenA = .error (.fault (oobMsg 0 65535)) :=
  ⟨rfl, rfl⟩

/-- C3: for every cycle-free input, every resolvable (child, parent) edge
has the parent emitted strictly after the child in the visitation order
(this is proved for the scheduler's order itself, without assuming the
rest of the pipeline succeeds, which is stronger than the claim). -/
theorem c3_parent_after_children (commits : List CommitIn)
    (hcf : CycleFree commits) (c p : Nat) (hcp : childParent commits c p) :
    (schedule commits).indexOf c < (schedule commits).indexOf p :=
  schedule_order commits hcf c p hcp

theorem c3_witness :
    CycleFree twoChain ∧ childParent twoChain 0 1 ∧
    (schedule twoChain).indexOf 0 < (schedule twoChain).indexOf 1 := by
  have hedge : ∀ c p, childParent twoChain c p → c < p := by
    rintro c p ⟨hc, hp⟩
    have hc2 : c < 2 := hc
    interval_cases c
    · have : refsFrom twoChain (buildMap twoChain) 0 = [1] := by decide
      rw [this] at hp
      simp at hp
      omega
    · have : refsFrom twoChain (buildMap twoChain) 1 = [] := by decide
      rw [this] at hp
      simp at hp
  have hcf : CycleFree twoChain := rank_cycleFree twoChain id hedge
  have hcp : childParent twoChain 0 1 := by
    constructor
    · decide
    · have : refsFrom twoChain (buildMap twoChain) 0 = [1] := by decide
      rw [this]
      simp
  exact ⟨hcf, hcp, c3_parent_after_children twoChain hcf 0 1 hcp⟩

/-- C4: a deserialization failure surfaces unchanged as the error value
(no buffer), and such messages never carry the panic marker; an internal
fault is caught at the boundary and surfaces as the marker-prefixed
message, distinct from every input-validation message; success implies
the input deserialized. -/
theorem c4_boundary (j : Json) :
    (∀ e, deserCommits j = .error e →
      build_lanes j = .error e ∧ ∀ t, e ≠ panicMark ++ t) ∧
    (∀ s, buildLanesInner j = .error (.fault s) →
      build_lanes j = .error (panicMark ++ s) ∧
      ∀ e ∈ deserErrMsgs, panicMark ++ s ≠ e) ∧
    (∀ buf, build_lanes j = .ok buf →
      ∃ commits, deserCommits j = .ok commits) := by
  refine ⟨?_, ?_, build_lanes_ok_deser j⟩
  · intro e he
    exact ⟨build_lanes_parse_error j e he,
      ne_panicMark_append e (deserCommits_error j e he)⟩
  · intro s hs
    refine ⟨build_lanes_fault j s hs, ?_⟩
    intro e hemem heq
    exact ne_panicMark_append e hemem s heq.symm

theorem c4_witness :
    build_lanes (Json.num 3) = .error errMsgRecArr ∧
    (∀ t, errMsgRecArr ≠ panicMark ++ t) ∧
    build_lanes scenAJson = .error (panicMark ++ oobMsg 0 65535) := by
  have h1 := (c4_boundary (Json.num 3)).1 errMsgRecArr rfl
  have h2 := (c4_boundary scenAJson).2.1 (oobMsg 0 65535) rfl
  exact ⟨h1.1, h1.2, h2.1⟩

/-- C5: on success the buffer is exactly the §4.4 layout — little-endian
4-byte commit and edge counts, a 14-byte record (2-byte lane, 4-byte
position, 8-byte float timestamp) per commit in visitation order, and a
24-byte record (4-byte child and parent indices, then child lane, 0.5,
parent lane, 0.5 as 4-byte floats) per edge — for a total of
`8 + 14*N + 24*E` bytes. -/
theorem c5_layout (commits : List CommitIn) (buf : List Nat)
    (h : buildLanesCommits commits = .ok buf) :
    (∃ st : LaneSt,
      laneAlloc commits (buildMap commits) (schedule commits)
          ⟨[], List.replicate commits.length 65535⟩ = .ok st ∧
      buf = specBufferLayout commits (schedule commits) st.laneOf
          (buildEdges commits (buildMap commits))) ∧
    buf.length = 8 + 14 * commits.length
        + 24 * (buildEdges commits (buildMap commits)).length := by
  obtain ⟨st, hst, hbuf⟩ := buildLanesCommits_ok commits buf h
  constructor
  · refine ⟨st, hst, ?_⟩
    rw [hbuf, specBufferLayout, List.enum, encodeCommits,
      encodeCommitsAux_eq_enumFrom]
  · rw [hbuf]
    have h1 := encodeCommitsAux_length commits st.laneOf (schedule commits) 0
    have h2 := flatMap_edgeChunk_length st.laneOf
      (buildEdges commits (buildMap commits))
    have h3 := schedule_length commits
    simp only [List.length_append, u32le_length, encodeCommits]
    omega

theorem c5_witness :
    buildLanesCommits cornerOk = .ok cornerBuf ∧
    cornerBuf.length = 8 + 14 * cornerOk.length
        + 24 * (buildEdges cornerOk (buildMap cornerOk)).length := by
  have hok : buildLanesCommits cornerOk = .ok cornerBuf := rfl
  exact ⟨hok, (c5_layout cornerOk cornerBuf hok).2⟩

/-- C6: the emitted commit table always has exactly N entries — the
scheduler's order (with every unvisited commit appended in original index
order) — and the edge table has one entry per parent reference resolvable
in the input set. -/
theorem c6_counts (commits : List CommitIn) (buf : List Nat)
    (h : buildLanesCommits commits = .ok buf) :
    (schedule commits).length = commits.length ∧
    (buildEdges commits (buildMap commits)).length
        = numResolvableRefs commits ∧
    schedule commits = (scheduleState commits).topo
      ++ (List.range commits.length).filter
          (fun i => !((scheduleState commits).topo.contains i)) :=
  ⟨schedule_length commits, buildEdges_count commits,
    schedule_eq_append commits⟩

theorem c6_witness :
    (schedule cornerOk).length = cornerOk.length ∧
    (buildEdges cornerOk (buildMap cornerOk)).length
        = numResolvableRefs cornerOk ∧
    schedule cornerOk = (scheduleState cornerOk).topo
      ++ (List.range cornerOk.length).filter
          (fun i => !((scheduleState cornerOk).topo.contains i)) :=
  c6_counts cornerOk cornerBuf rfl

/-- C7: the scheduler's queue is modelled by a list kept sorted by
(timestamp, index); the initial seeding and every push preserve the
sorted order, and the head popped next is minimal: every other queued
entry has a larger timestamp or the same timestamp and a larger-or-equal
index.  Concretely, for scenario B's two tips with timestamps 1 < 2 the
emission order is `[a, b]` and the lanes are 0 and 1. -/
theorem c7_pop_min_and_scenB :
    (∀ (commits : List CommitIn) (ind : List Nat),
      heapSorted (initHeap commits ind)) ∧
    (∀ (x : Int × Nat) (h : List (Int × Nat)), heapSorted h →
      heapSorted (heapPush x h)) ∧
    (∀ (t : Int) (i : Nat) (rest : List (Int × Nat)),
      heapSorted ((t, i) :: rest) →
      ∀ k ∈ rest, t < k.1 ∨ (t = k.1 ∧ i ≤ k.2)) ∧
    schedule scenB = [0, 1] ∧
    laneAlloc scenB (buildMap scenB) (schedule scenB)
        ⟨[], List.replicate scenB.length 65535⟩
      = .ok ⟨[some 0, some 1], [0, 1]⟩ := by
  refine ⟨initHeap_sorted, heapSorted_push, ?_, rfl, rfl⟩
  intro t i rest hs k hk
  have := (List.pairwise_cons.1 hs).1 k hk
  exact this

theorem c7_witness :
    heapSorted [((5 : Int), 2), ((6 : Int), 0)] ∧
    ((5 : Int) < 6 ∨ ((5 : Int) = 6 ∧ 2 ≤ 0)) := by
  have hs : heapSorted [((5 : Int), 2), ((6 : Int), 0)] := by
    unfold heapSorted heapKeyLe
    decide
  exact ⟨hs, c7_pop_min_and_scenB.2.2.1 5 2 [(6, 0)] hs (6, 0) (by simp)⟩

/-- C8: the encoder checks each edge's endpoints against the commit range
before writing that edge and aborts with a descriptive error when out of
range; the branch is unreachable on edges the pipeline itself builds,
because both endpoints come from the same commit index map and are
strictly below N, so encoding always succeeds after a successful lane
allocation. -/
theorem c8_bounds (commits : List CommitIn) :
    (∀ e ∈ buildEdges commits (buildMap commits),
      e.1 < commits.length ∧ e.2 < commits.length) ∧
    (∀ (laneOf : List Nat) (c p : Nat) (eds : List (Nat × Nat)),
      laneOf.length ≤ c ∨ laneOf.length ≤ p →
      encodeEdges laneOf ((c, p) :: eds)
        = .error (.js (edgeOobMsg c p laneOf.length))) ∧
    (∀ st : LaneSt,
      laneAlloc commits (buildMap commits) (schedule commits)
          ⟨[], List.replicate commits.length 65535⟩ = .ok st →
      encodeEdges st.laneOf (buildEdges commits (buildMap commits))
        = .ok ((buildEdges commits (buildMap commits)).flatMap
            (fun e => edgeChunk st.laneOf e.1 e.2))) := by
  refine ⟨buildEdges_bounds commits,
    fun laneOf c p eds h => encodeEdges_error_head laneOf c p eds h, ?_⟩
  intro st hst
  have hlen : st.laneOf.length = commits.length := by
    have := laneAlloc_laneOf_length commits (buildMap commits)
      (schedule commits) _ st hst
    simpa [List.length_replicate] using this
  apply encodeEdges_ok_of_bounds
  intro e he
  have hb := buildEdges_bounds commits e he
  rw [hlen]
  exact hb

theorem c8_witness :
    ((1, 0).1 < cornerOk.length ∧ (1, 0).2 < cornerOk.length) ∧
    encodeEdges [] [(5, 0)] = .error (.js (edgeOobMsg 5 0 0)) ∧
    encodeEdges ([0, 0] : List Nat) (buildEdges cornerOk (buildMap cornerOk))
      = .ok ((buildEdges cornerOk (buildMap cornerOk)).flatMap
          (fun e => edgeChunk ([0, 0] : List Nat) e.1 e.2)) := by
  have h := c8_bounds cornerOk
  refine ⟨h.1 (1, 0) (by decide), h.2.1 [] 5 0 [] (by simp), ?_⟩
  have := h.2.2 ⟨[none], [0, 0]⟩ rfl
  exact this

/-- C9: with a duplicated identifier the index binds it to the position
of its last occurrence, so parent references naming it resolve there;
the duplicate records are not merged — the emitted order still contains
every input index. -/
theorem c9_last_write_wins (commits : List CommitIn) (s : String) (i : Nat)
    (hi : i < commits.length)
    (hs : (commits.getD i default).sha = s)
    (hdup : ∃ j, j < commits.length ∧ j ≠ i ∧
      (commits.getD j default).sha = s)
    (hlast : ∀ j, i < j → j < commits.length →
      (commits.getD j default).sha ≠ s) :
    mapGet (buildMap commits) s = some i ∧
    (schedule commits).length = commits.length ∧
    (∀ k, k < commits.length → k ∈ schedule commits) ∧
    (∀ laneOf, (encodeCommits commits laneOf (schedule commits)).length
        = 14 * commits.length) := by
  refine ⟨?_, schedule_length commits, ?_, ?_⟩
  · have hlw := lastIdxFrom_last s commits 0 i hi hs hlast
    rw [Nat.zero_add] at hlw
    rw [buildMap, buildMapAux_get, hlw]
  · intro k hk
    exact (schedule_perm commits).mem_iff.2 (List.mem_range.2 hk)
  · intro laneOf
    rw [encodeCommits, encodeCommitsAux_length, schedule_length]

theorem c9_witness :
    mapGet (buildMap dupInput) "x" = some 1 ∧
    (schedule dupInput).length = dupInput.length ∧
    (∀ k, k < dupInput.length → k ∈ schedule dupInput) ∧
    (∀ laneOf, (encodeCommits dupInput laneOf (schedule dupInput)).length
        = 14 * dupInput.length) := by
  apply c9_last_write_wins dupInput "x" 1
  · decide
  · decide
  · exact ⟨0, by decide, by decide, by decide⟩
  · intro j h1 h2
    have : j = 2 := by
      simp only [dupInput, List.length_cons, List.length_nil] at h2
      omega
    subst this
    decide

/-- C10: the visitation order after the append step is a duplicate-free
permutation of the input indices 0..N — each index is queued at most
once (the readiness decrement is guarded by positivity) and each appears
exactly once in the emitted order. -/
theorem c10_schedule_perm (commits : List CommitIn) :
    (schedule commits).Nodup ∧
    (schedule commits).Perm (List.range commits.length) :=
  ⟨(schedule_perm commits).nodup_iff.2 (List.nodup_range _),
    schedule_perm commits⟩

end GitPow
